import Mathlib

/-!
Path canonicalisation: a shallow embedding of `canonicalize_path` (`pathcanon.c`)
and `canonicalize_efi_path` (`pathcanon_efi.c`).

The caller's buffer is a `List Char` holding the raw memory cells, terminator
included; a pointer into the buffer is an offset (`Nat`).  The component table
`dirs` is a list of `dir_component` records addressed by index.  Both source
files share the same body up to the separator character, so the body is
embedded once with the separator as a parameter.

The counters `n_dirs`, `len`, `i` and `j` are `int` in the source and natural
numbers here.  The two agree as long as no counter leaves the range of `int`,
which is the case when the path satisfies `length + 1 < 2 ^ 31` (theorem
`int_counters_fit`); signed overflow is undefined in C.  Every main theorem
whose statement depends on a run of the loops carries that bound as a
hypothesis; the lemmas about the loops hold for the natural-number model at any
length.
-/

namespace PathCanon

/-- The string terminator. -/
def NUL : Char := Char.ofNat 0

/-- One entry of the component table (`struct dir_component`): `dir` is the
offset of the component's first character in the buffer, `len` its length.  The
field `len` is an `int` in the source; it stays in the range of `int` for paths
with `length + 1 < 2 ^ 31`, the bound the main theorems carry. -/
structure dir_component where
  dir : Nat
  len : Nat
deriving DecidableEq

instance : Inhabited dir_component := ⟨⟨0, 0⟩⟩

/-- The outcome of a call: `ok` is false when the call returns `NULL`, and
`mem` is the caller's buffer after the call. -/
structure call_result where
  ok : Bool
  mem : List Char
deriving DecidableEq

/-- Memory read `buf[i]`; cells outside the buffer read as the terminator. -/
def peek (buf : List Char) (i : Nat) : Char := buf.getD i NUL

/-- Field write `dirs[i].len = n`. -/
def set_len (dirs : List dir_component) (i n : Nat) : List dir_component :=
  dirs.set i ⟨(dirs.getD i default).dir, n⟩

/-- The counting loop `for (p = path; *p; p++) if (*p == sep) n_dirs++;`.
The first argument is the memory from `p` onwards.  The counter `n_dirs` is an
`int` in the source; it stays in the range of `int` for paths with
`length + 1 < 2 ^ 31`, the bound the main theorems carry. -/
def count_loop (sep : Char) : List Char → Nat → Nat
  | [], n_dirs => n_dirs
  | c :: rest, n_dirs =>
    if c = NUL then n_dirs
    else count_loop sep rest (if c = sep then n_dirs + 1 else n_dirs)

/-- The splitting loop: a separator at `p` opens component `n_dirs + 1` at
`p + 1` with length 0, any other character extends component `n_dirs`.
The first argument is the memory from `p` onwards.  The counters `n_dirs` and
`len` are `int` in the source; they stay in the range of `int` for paths with
`length + 1 < 2 ^ 31`, the bound the main theorems carry. -/
def split_loop (sep : Char) :
    List Char → Nat → Nat → List dir_component → Nat × List dir_component
  | [], _, n_dirs, dirs => (n_dirs, dirs)
  | c :: rest, p, n_dirs, dirs =>
    if c = NUL then (n_dirs, dirs)
    else if c = sep then
      split_loop sep rest (p + 1) (n_dirs + 1) (dirs.set (n_dirs + 1) ⟨p + 1, 0⟩)
    else
      split_loop sep rest (p + 1) n_dirs
        (set_len dirs n_dirs ((dirs.getD n_dirs default).len + 1))

/-- The backward scan `for (j = i - 1; j >= 0; j--) if (dirs[j].len > 0) break;`.
The argument is `j + 1`; the result is `none` when the loop ends with `j < 0`. -/
def scan_back (dirs : List dir_component) : Nat → Option Nat
  | 0 => none
  | j + 1 => if (dirs.getD j default).len > 0 then some j else scan_back dirs j

/-- The resolution loop `for (i = 0; i < n_dirs; i++)`; the first numeric
argument is the number of iterations left, the second is `i`.  The result is
`none` when the loop leaves the function through `return NULL`. -/
def resolve_loop (buf : List Char) :
    Nat → Nat → List dir_component → Option (List dir_component)
  | 0, _, dirs => some dirs
  | k + 1, i, dirs =>
    let dp := dirs.getD i default
    if dp.len = 1 ∧ peek buf dp.dir = '.' then
      resolve_loop buf k (i + 1) (set_len dirs i 0)
    else if dp.len = 2 ∧ peek buf dp.dir = '.' ∧ peek buf (dp.dir + 1) = '.' then
      match scan_back (set_len dirs i 0) i with
      | none => none
      | some j => resolve_loop buf k (i + 1) (set_len (set_len dirs i 0) j 0)
    else resolve_loop buf k (i + 1) dirs

/-- The copy loop `while (j--) *p++ = *q++;`, returning the new `p` and the
buffer. -/
def copy_loop : Nat → Nat → Nat → List Char → Nat × List Char
  | 0, _, p, buf => (p, buf)
  | j + 1, q, p, buf => copy_loop j (q + 1) (p + 1) (buf.set p (peek buf q))

/-- The reconstruction loop `for (i = 0; i < n_dirs; i++) if (dirs[i].len > 0) ...`;
the first numeric argument is the number of iterations left, the second is `i`.
Returns the final write pointer and the buffer. -/
def emit_loop (sep : Char) (dirs : List dir_component) :
    Nat → Nat → Nat → Bool → List Char → Nat × List Char
  | 0, _, p, _, buf => (p, buf)
  | k + 1, i, p, first_dir, buf =>
    if (dirs.getD i default).len > 0 then
      let pb := if first_dir then (p, buf) else (p + 1, buf.set p sep)
      let pb2 := copy_loop (dirs.getD i default).len (dirs.getD i default).dir pb.1 pb.2
      emit_loop sep dirs k (i + 1) pb2.1 false pb2.2
    else emit_loop sep dirs k (i + 1) p first_dir buf

/-- The first half of the body: count the separators, allocate the component
table with that many entries and fill it by the splitting loop.  Returns
`n_dirs` after its final increment and the table; `path` is the offset of the
path in `buf`. -/
def split_path (sep : Char) (buf : List Char) (path : Nat) : Nat × List dir_component :=
  let n_alloc := count_loop sep (buf.drop path) 1
  let dirs0 := (List.replicate n_alloc (default : dir_component)).set 0 ⟨path, 0⟩
  let sp := split_loop sep (buf.drop path) path 0 dirs0
  (sp.1 + 1, sp.2)

/-- The component table after the resolution loop, `none` when the loop
returns `NULL`. -/
def resolve_path (sep : Char) (buf : List Char) (path : Nat) : Option (List dir_component) :=
  resolve_loop buf (split_path sep buf path).1 0 (split_path sep buf path).2

/-- The body shared by both variants, from the component count to the final
terminator; `path` is the offset of the path in `buf`. -/
def canonicalize_body (sep : Char) (buf : List Char) (path : Nat) : call_result :=
  match resolve_path sep buf path with
  | none => ⟨false, buf⟩
  | some dirs =>
    let p := if peek buf path = sep then path + 1 else path
    let pb := emit_loop sep dirs (split_path sep buf path).1 0 p true buf
    ⟨true, pb.2.set pb.1 NUL⟩

/-- The function `canonicalize_path` of `pathcanon.c`, on the buffer `path`. -/
def canonicalize_path (path : List Char) : call_result :=
  if peek path 0 = NUL then ⟨false, path⟩
  else canonicalize_body '/' path 0

/-- The call `wcsstr(volpath, L":")`: the offset of the first `:` before the terminator.
The first argument is the memory from the offset in the second onwards. -/
def wcsstr_colon : List Char → Nat → Option Nat
  | [], _ => none
  | c :: rest, i =>
    if c = NUL then none else if c = ':' then some i else wcsstr_colon rest (i + 1)

/-- The function `canonicalize_efi_path` of `pathcanon_efi.c`, on the buffer `volpath`. -/
def canonicalize_efi_path (volpath : List Char) : call_result :=
  let path := match wcsstr_colon volpath 0 with
    | none => 0
    | some i => i + 1
  if peek volpath path = NUL then ⟨true, volpath⟩
  else canonicalize_body '\\' volpath path

/-- The C string stored in `mem`: the characters before the first terminator. -/
def c_str (mem : List Char) : List Char := mem.takeWhile (fun c => c != NUL)

/-- Call `canonicalize_path` on a fresh buffer holding the string `s`, as the
test driver does: `none` for `NULL`, otherwise the string left in the buffer. -/
def run_path (s : List Char) : Option (List Char) :=
  let r := canonicalize_path (s ++ [NUL])
  if r.ok then some (c_str r.mem) else none

/-- Call `canonicalize_efi_path` on a fresh buffer holding the string `s`. -/
def run_efi (s : List Char) : Option (List Char) :=
  let r := canonicalize_efi_path (s ++ [NUL])
  if r.ok then some (c_str r.mem) else none

/-- Run the shared body alone on a fresh buffer holding the string `s`. -/
def run_body (sep : Char) (s : List Char) : Option (List Char) :=
  let r := canonicalize_body sep (s ++ [NUL]) 0
  if r.ok then some (c_str r.mem) else none

/-! Reference semantics -/

/-- Split a string on every occurrence of `sep`. -/
def split_on (sep : Char) : List Char → List (List Char)
  | [] => [[]]
  | c :: cs =>
    if c = sep then [] :: split_on sep cs
    else match split_on sep cs with
      | [] => [[c]]
      | h :: t => (c :: h) :: t

/-- Join names with one `sep` between neighbours. -/
def join_with (sep : Char) : List (List Char) → List Char
  | [] => []
  | [x] => x
  | x :: y :: rest => x ++ sep :: join_with sep (y :: rest)

/-- The stack walk of the reference: empty components and `.` are skipped,
`..` pops (failing on an empty stack), every other component is pushed.  The
top of the stack is the last element of the list. -/
def walk : List (List Char) → List (List Char) → Option (List (List Char))
  | stack, [] => some stack
  | stack, c :: rest =>
    if c = [] ∨ c = ['.'] then walk stack rest
    else if c = ['.', '.'] then
      (if stack = [] then none else walk stack.dropLast rest)
    else walk (stack ++ [c]) rest

/-- The leading separator kept for an absolute path. -/
def lead (sep : Char) (p : List Char) : List Char :=
  if p.head? = some sep then [sep] else []

/-- The stack-based reference canonicaliser. -/
def reference (sep : Char) (p : List Char) : Option (List Char) :=
  (walk [] (split_on sep p)).map (fun stack => lead sep p ++ join_with sep stack)

/-! Further definitions: vocabulary of the proofs, traced loops, two-buffer reconstruction -/

/-- The component table the splitting loop builds for the components still to be read,
when the current component starts at offset `start` and already has length `cur`. -/
def layout_from (start cur : Nat) : List (List Char) → List dir_component
  | [] => []
  | h :: t => ⟨start, cur + h.length⟩ :: layout_from (start + cur + h.length + 1) 0 t

/-- The component table for components stored from offset `o` on, each with a
mark telling whether it still has its full length (`true`) or was set to 0. -/
def layout_marked (o : Nat) : List (List Char × Bool) → List dir_component
  | [] => []
  | x :: t => ⟨o, if x.2 then x.1.length else 0⟩ :: layout_marked (o + x.1.length + 1) t

/-- Number of buffer cells taken by the components and the one cell after each. -/
def span : List (List Char × Bool) → Nat
  | [] => 0
  | x :: t => x.1.length + 1 + span t

/-- The names of the marked components of positive length. -/
def survivors (M : List (List Char × Bool)) : List (List Char) :=
  (M.filter (fun x => x.2 && decide (x.1 ≠ []))).map Prod.fst

/-- The buffer holds the components `cs` from offset `o`, one cell apart. -/
def stored (buf : List Char) : Nat → List (List Char) → Prop
  | _, [] => True
  | o, c :: rest => (buf.drop o).take c.length = c ∧ stored buf (o + c.length + 1) rest

/-- Every name preceded by one separator. -/
def tail_str (sep : Char) : List (List Char) → List Char
  | [] => []
  | c :: t => sep :: c ++ tail_str sep t

/-- What the reconstruction loop writes for the surviving names: nothing goes
before the first name while `first_dir` is set. -/
def render (sep : Char) (first_dir : Bool) (names : List (List Char)) : List Char :=
  if first_dir then join_with sep names else tail_str sep names

/-- The text `tx` starts with the components `cs`, each followed by one cell. -/
def laid : List (List Char) → List Char → Prop
  | [], _ => True
  | c :: t, tx => ∃ a tx', tx = c ++ a :: tx' ∧ laid t tx'

/-- An ordinary name: non-empty, without separator, neither `.` nor `..`. -/
def ordinary (sep : Char) (n : List Char) : Prop :=
  n ≠ [] ∧ sep ∉ n ∧ n ≠ ['.'] ∧ n ≠ ['.', '.']

instance (sep : Char) (n : List Char) : Decidable (ordinary sep n) := by
  unfold ordinary; infer_instance

/-- A component that is exactly `..`. -/
def is_dotdot (c : List Char) : Bool := decide (c = ['.', '.'])

/-- A component that is non-empty and neither `.` nor `..`. -/
def is_name (c : List Char) : Bool := decide (c ≠ [] ∧ c ≠ ['.'] ∧ c ≠ ['.', '.'])

/-- The part of `x` after its first `:`, or the whole of `x` when it holds no `:`. -/
def after_colon (x : List Char) : List Char :=
  if ':' ∈ x then (x.dropWhile (fun c => c != ':')).drop 1 else x

/-- Exchange the two separator characters `/` and `\`. -/
def swap_sep (c : Char) : Char :=
  if c = '/' then '\\' else if c = '\\' then '/' else c

/-- Exchange `/` and `\` throughout a string. -/
def swap (s : List Char) : List Char := s.map swap_sep

/-- The characters of the component described by the table entry `d`: `d.len` cells of
the buffer from offset `d.dir`. -/
def text (buf : List Char) (d : dir_component) : List Char := (buf.drop d.dir).take d.len

/-- One memory access of a call, as recorded by the traced loops: an index used on the
component table, a read `dp->dir[k]` (the buffer cell at offset `dir + k`) of a component
that starts at offset `dir` and has length `len`, a copy step `*p++ = *q++` (a read of the
buffer cell at offset `q` and a write at offset `p`), a separator write `*p++ = sep` before
the component read from `q`, and the final terminator write `*p = 0`. -/
inductive access where
  | table (i : Nat)
  | comp_read (dir len k : Nat)
  | copy (p q : Nat)
  | put_sep (p q : Nat)
  | put_nul (p : Nat)
deriving DecidableEq

/-- The splitting loop `split_loop` with the table indices it uses. -/
def split_loop_tr (sep : Char) :
    List Char → Nat → Nat → List dir_component → (Nat × List dir_component) × List access
  | [], _, n_dirs, dirs => ((n_dirs, dirs), [])
  | c :: rest, p, n_dirs, dirs =>
    if c = NUL then ((n_dirs, dirs), [])
    else if c = sep then
      ((split_loop_tr sep rest (p + 1) (n_dirs + 1) (dirs.set (n_dirs + 1) ⟨p + 1, 0⟩)).1,
        access.table (n_dirs + 1) ::
          (split_loop_tr sep rest (p + 1) (n_dirs + 1) (dirs.set (n_dirs + 1) ⟨p + 1, 0⟩)).2)
    else
      ((split_loop_tr sep rest (p + 1) n_dirs
          (set_len dirs n_dirs ((dirs.getD n_dirs default).len + 1))).1,
        access.table n_dirs ::
          (split_loop_tr sep rest (p + 1) n_dirs
            (set_len dirs n_dirs ((dirs.getD n_dirs default).len + 1))).2)

/-- The backward scan `scan_back` with the table indices it reads. -/
def scan_back_tr (dirs : List dir_component) : Nat → Option Nat × List access
  | 0 => (none, [])
  | j + 1 =>
    if (dirs.getD j default).len > 0 then (some j, [access.table j])
    else ((scan_back_tr dirs j).1, access.table j :: (scan_back_tr dirs j).2)

/-- The reads of `dp->dir[0]` and `dp->dir[1]` made by the two tests of one iteration of
the resolution loop, in the order the short-circuit evaluation makes them. -/
def comp_reads (buf : List Char) (dp : dir_component) : List access :=
  if dp.len = 1 then [access.comp_read dp.dir dp.len 0]
  else if dp.len = 2 then
    (if peek buf dp.dir = '.' then
        [access.comp_read dp.dir dp.len 0, access.comp_read dp.dir dp.len 1]
      else [access.comp_read dp.dir dp.len 0])
  else []

/-- The resolution loop `resolve_loop` with its accesses. -/
def resolve_loop_tr (buf : List Char) :
    Nat → Nat → List dir_component → Option (List dir_component) × List access
  | 0, _, dirs => (some dirs, [])
  | k + 1, i, dirs =>
    if (dirs.getD i default).len = 1 ∧ peek buf (dirs.getD i default).dir = '.' then
      ((resolve_loop_tr buf k (i + 1) (set_len dirs i 0)).1,
        access.table i :: comp_reads buf (dirs.getD i default) ++ access.table i ::
          (resolve_loop_tr buf k (i + 1) (set_len dirs i 0)).2)
    else if (dirs.getD i default).len = 2 ∧ peek buf (dirs.getD i default).dir = '.'
        ∧ peek buf ((dirs.getD i default).dir + 1) = '.' then
      match (scan_back_tr (set_len dirs i 0) i).1 with
      | none =>
        (none, access.table i :: comp_reads buf (dirs.getD i default) ++ access.table i ::
          (scan_back_tr (set_len dirs i 0) i).2)
      | some j =>
        ((resolve_loop_tr buf k (i + 1) (set_len (set_len dirs i 0) j 0)).1,
          access.table i :: comp_reads buf (dirs.getD i default) ++ access.table i ::
            (scan_back_tr (set_len dirs i 0) i).2 ++ access.table j ::
              (resolve_loop_tr buf k (i + 1) (set_len (set_len dirs i 0) j 0)).2)
    else
      ((resolve_loop_tr buf k (i + 1) dirs).1,
        access.table i :: comp_reads buf (dirs.getD i default) ++
          (resolve_loop_tr buf k (i + 1) dirs).2)

/-- The copy loop `copy_loop` with its copy steps. -/
def copy_loop_tr : Nat → Nat → Nat → List Char → (Nat × List Char) × List access
  | 0, _, p, buf => ((p, buf), [])
  | j + 1, q, p, buf =>
    ((copy_loop_tr j (q + 1) (p + 1) (buf.set p (peek buf q))).1,
      access.copy p q :: (copy_loop_tr j (q + 1) (p + 1) (buf.set p (peek buf q))).2)

/-- The reconstruction loop `emit_loop` with its accesses. -/
def emit_loop_tr (sep : Char) (dirs : List dir_component) :
    Nat → Nat → Nat → Bool → List Char → (Nat × List Char) × List access
  | 0, _, p, _, buf => ((p, buf), [])
  | k + 1, i, p, first_dir, buf =>
    if (dirs.getD i default).len > 0 then
      let pb := if first_dir then (p, buf) else (p + 1, buf.set p sep)
      let w := if first_dir then [] else [access.put_sep p (dirs.getD i default).dir]
      let cp := copy_loop_tr (dirs.getD i default).len (dirs.getD i default).dir pb.1 pb.2
      ((emit_loop_tr sep dirs k (i + 1) cp.1.1 false cp.1.2).1,
        access.table i :: w ++ cp.2 ++ (emit_loop_tr sep dirs k (i + 1) cp.1.1 false cp.1.2).2)
    else
      ((emit_loop_tr sep dirs k (i + 1) p first_dir buf).1,
        access.table i :: (emit_loop_tr sep dirs k (i + 1) p first_dir buf).2)

/-- The shared body `canonicalize_body` with all its accesses, the initial write of
`dirs[0]` and the final terminator write included. -/
def canonicalize_body_tr (sep : Char) (buf : List Char) (path : Nat) :
    call_result × List access :=
  let n_alloc := count_loop sep (buf.drop path) 1
  let dirs0 := (List.replicate n_alloc (default : dir_component)).set 0 ⟨path, 0⟩
  let sp := split_loop_tr sep (buf.drop path) path 0 dirs0
  let n_dirs := sp.1.1 + 1
  let rs := resolve_loop_tr buf n_dirs 0 sp.1.2
  match rs.1 with
  | none => (⟨false, buf⟩, access.table 0 :: sp.2 ++ rs.2)
  | some dirs =>
    let p := if peek buf path = sep then path + 1 else path
    let em := emit_loop_tr sep dirs n_dirs 0 p true buf
    (⟨true, em.1.2.set em.1.1 NUL⟩,
      access.table 0 :: sp.2 ++ rs.2 ++ em.2 ++ [access.put_nul em.1.1])

/-- The function `canonicalize_path` with all its accesses to the component table and
all its writes to the buffer. -/
def canonicalize_path_tr (path : List Char) : call_result × List access :=
  if peek path 0 = NUL then (⟨false, path⟩, [])
  else canonicalize_body_tr '/' path 0

/-- The reconstruction of `canonicalize_body`, in place in `buf`: the part of the body from
`p = path` to the final terminator write. -/
def reconstruct (sep : Char) (dirs : List dir_component) (n_dirs : Nat) (buf : List Char)
    (path : Nat) : List Char :=
  let p := if peek buf path = sep then path + 1 else path
  let pb := emit_loop sep dirs n_dirs 0 p true buf
  pb.2.set pb.1 NUL

/-- The copy loop reading from `src` and writing into the separate buffer `dst`. -/
def copy_loop_fresh (src : List Char) : Nat → Nat → Nat → List Char → Nat × List Char
  | 0, _, p, dst => (p, dst)
  | j + 1, q, p, dst => copy_loop_fresh src j (q + 1) (p + 1) (dst.set p (peek src q))

/-- The reconstruction loop reading the components from `src` and writing into the separate
buffer `dst`. -/
def emit_loop_fresh (sep : Char) (dirs : List dir_component) (src : List Char) :
    Nat → Nat → Nat → Bool → List Char → Nat × List Char
  | 0, _, p, _, dst => (p, dst)
  | k + 1, i, p, first_dir, dst =>
    if (dirs.getD i default).len > 0 then
      let pb := if first_dir then (p, dst) else (p + 1, dst.set p sep)
      let pb2 := copy_loop_fresh src (dirs.getD i default).len (dirs.getD i default).dir pb.1 pb.2
      emit_loop_fresh sep dirs src k (i + 1) pb2.1 false pb2.2
    else emit_loop_fresh sep dirs src k (i + 1) p first_dir dst

/-- Reconstruction into a separate buffer `dst` from the unmodified buffer `src`: the
leading separator of an absolute path, which the in-place loop leaves where it is, is
written to `dst` first. -/
def reconstruct_fresh (sep : Char) (dirs : List dir_component) (n_dirs : Nat)
    (src : List Char) (path : Nat) (dst : List Char) : List Char :=
  let dst1 := if peek src path = sep then dst.set path sep else dst
  let p := if peek src path = sep then path + 1 else path
  let pb := emit_loop_fresh sep dirs src n_dirs 0 p true dst1
  pb.2.set pb.1 NUL

/-- An access that is in bounds for a table of `n_alloc` entries and a string of `limit`
characters stored from offset 0: a table index below `n_alloc`; a component read inside
its component, the component lying inside the string; a copy step that reads a cell of the
string and writes at an offset that is at most `limit`; a separator or terminator write at
an offset that is at most `limit`. -/
def in_bounds (n_alloc limit : Nat) : access → Prop
  | access.table i => i < n_alloc
  | access.comp_read dir len k => k < len ∧ dir + len ≤ limit
  | access.copy p q => p ≤ limit ∧ q < limit
  | access.put_sep p _ => p ≤ limit
  | access.put_nul p => p ≤ limit

/-- A write that does not pass the position of the next read: a copy step writes at or
before the cell it reads, a separator is written before the start of the component that
is read next. -/
def behind_read : access → Prop
  | access.copy p q => p ≤ q
  | access.put_sep p q => p < q
  | _ => True

/-! Theorems -/

theorem getD_append_length {α : Type} (D : List α) (a : α) (R : List α) (d : α) :
    (D ++ a :: R).getD D.length d = a := by
  induction D with
  | nil => simp
  | cons x xs ih => simpa using ih

theorem set_append_length {α : Type} (D : List α) (a b : α) (R : List α) :
    (D ++ a :: R).set D.length b = D ++ b :: R := by
  induction D with
  | nil => simp
  | cons x xs ih => simp [ih]

theorem split_on_ne_nil (sep : Char) (s : List Char) : split_on sep s ≠ [] := by
  cases s with
  | nil => simp [split_on]
  | cons c cs =>
    unfold split_on
    split
    · simp
    · split <;> simp

theorem split_on_cons_sep (sep : Char) (cs : List Char) :
    split_on sep (sep :: cs) = [] :: split_on sep cs := by
  simp [split_on]

theorem split_on_cons_ne {sep c : Char} (h : c ≠ sep) (cs : List Char) :
    ∃ hd tl, split_on sep cs = hd :: tl ∧ split_on sep (c :: cs) = (c :: hd) :: tl := by
  cases hsp : split_on sep cs with
  | nil => exact absurd hsp (split_on_ne_nil sep cs)
  | cons hd tl =>
    refine ⟨hd, tl, rfl, ?_⟩
    simp [split_on, h, hsp]

theorem split_on_length (sep : Char) (s : List Char) :
    (split_on sep s).length = s.count sep + 1 := by
  induction s with
  | nil => simp [split_on]
  | cons c cs ih =>
    by_cases h : c = sep
    · subst h
      simp [split_on_cons_sep, ih]
    · obtain ⟨hd, tl, h1, h2⟩ := split_on_cons_ne h cs
      rw [h2]
      rw [h1] at ih
      simp [List.count_cons, h] at ih ⊢
      exact ih

theorem count_loop_eq (sep : Char) (post : List Char) :
    ∀ (s : List Char), NUL ∉ s → ∀ n, count_loop sep (s ++ NUL :: post) n = n + s.count sep := by
  intro s
  induction s with
  | nil => intro _ n; simp [count_loop]
  | cons c cs ih =>
    intro hs n
    have hc : c ≠ NUL := fun h => hs (by simp [h])
    have hcs : NUL ∉ cs := fun h => hs (by simp [h])
    rw [List.cons_append, count_loop, if_neg hc, ih hcs]
    by_cases h : c = sep
    · subst h; simp; omega
    · simp [List.count_cons, h]

theorem split_loop_eq (sep : Char) (hsep : sep ≠ NUL) (post : List Char) :
    ∀ (s : List Char), NUL ∉ s → ∀ (D : List dir_component) (start cur m : Nat),
      s.count sep ≤ m →
      split_loop sep (s ++ NUL :: post) (start + cur) D.length
          (D ++ ⟨start, cur⟩ :: List.replicate m default)
        = (D.length + s.count sep,
            D ++ layout_from start cur (split_on sep s)
              ++ List.replicate (m - s.count sep) default) := by
  intro s
  induction s with
  | nil =>
    intro _ D start cur m _
    simp [split_loop, split_on, layout_from]
  | cons c cs ih =>
    intro hs D start cur m hm
    have hc : c ≠ NUL := fun h => hs (by simp [h])
    have hcs : NUL ∉ cs := fun h => hs (by simp [h])
    by_cases h : c = sep
    · subst h
      simp only [List.count_cons_self] at hm
      obtain ⟨m', rfl⟩ : ∃ m', m = m' + 1 := ⟨m - 1, by omega⟩
      have hset : (D ++ (⟨start, cur⟩ : dir_component) :: List.replicate (m' + 1) default).set
          (D.length + 1) ⟨start + cur + 1, 0⟩
          = (D ++ [⟨start, cur⟩]) ++ ⟨start + cur + 1, 0⟩ :: List.replicate m' default := by
        simp [List.replicate_succ, List.set_append]
      rw [List.cons_append, split_loop, if_neg hc, if_pos rfl, hset]
      have := ih hcs (D ++ [⟨start, cur⟩]) (start + cur + 1) 0 m' (by omega)
      simp only [List.length_append, List.length_singleton, Nat.add_zero] at this
      rw [this]
      simp [split_on_cons_sep, layout_from]
      omega
    · obtain ⟨hd, tl, h1, h2⟩ := split_on_cons_ne h cs
      have hcnt : (c :: cs).count sep = cs.count sep := by
        simp [List.count_cons, h]
      rw [hcnt] at hm ⊢
      have hset : set_len (D ++ (⟨start, cur⟩ : dir_component) :: List.replicate m default) D.length
          (((D ++ (⟨start, cur⟩ : dir_component) :: List.replicate m default).getD D.length default).len + 1)
          = D ++ ⟨start, cur + 1⟩ :: List.replicate m default := by
        simp only [set_len, getD_append_length, set_append_length]
      rw [List.cons_append, split_loop, if_neg hc, if_neg h, hset]
      have := ih hcs D start (cur + 1) m hm
      rw [show start + cur + 1 = start + (cur + 1) by omega, this, h2, h1]
      simp [layout_from]
      constructor
      · omega
      · congr 1; omega

theorem layout_from_zero (o : Nat) (cs : List (List Char)) :
    layout_from o 0 cs = layout_marked o (cs.map (fun c => (c, true))) := by
  induction cs generalizing o with
  | nil => rfl
  | cons c cs ih => simp [layout_from, layout_marked, ih]

theorem layout_marked_append (o : Nat) (A B : List (List Char × Bool)) :
    layout_marked o (A ++ B) = layout_marked o A ++ layout_marked (o + span A) B := by
  induction A generalizing o with
  | nil => simp [layout_marked, span]
  | cons x t ih =>
    rw [List.cons_append, layout_marked, layout_marked, span, ih, List.cons_append,
      show o + (x.1.length + 1 + span t) = o + x.1.length + 1 + span t by omega]

theorem length_layout_marked (o : Nat) (M : List (List Char × Bool)) :
    (layout_marked o M).length = M.length := by
  induction M generalizing o with
  | nil => rfl
  | cons x t ih => simp [layout_marked, ih]

theorem span_append (A B : List (List Char × Bool)) : span (A ++ B) = span A + span B := by
  induction A with
  | nil => simp [span]
  | cons x t ih => simp [span, ih]; omega

theorem survivors_append (A B : List (List Char × Bool)) :
    survivors (A ++ B) = survivors A ++ survivors B := by
  simp [survivors]

theorem scan_back_marked (o : Nat) (M : List (List Char × Bool)) :
    ∀ T : List dir_component,
      (survivors M = [] → scan_back (layout_marked o M ++ T) M.length = none) ∧
      (survivors M ≠ [] → ∃ A c B, M = A ++ (c, true) :: B ∧ c ≠ [] ∧ survivors B = [] ∧
          scan_back (layout_marked o M ++ T) M.length = some A.length) := by
  induction M using List.reverseRecOn with
  | nil => intro T; simp [survivors, scan_back]
  | append_singleton M x ih =>
    intro T
    have hlay : layout_marked o (M ++ [x]) ++ T
        = layout_marked o M ++ (⟨o + span M, if x.2 then x.1.length else 0⟩ :: T) := by
      simp [layout_marked_append, layout_marked]
    have hget : (layout_marked o M ++ (⟨o + span M, if x.2 then x.1.length else 0⟩ :: T)).getD
        M.length default = ⟨o + span M, if x.2 then x.1.length else 0⟩ := by
      have := getD_append_length (layout_marked o M)
        (⟨o + span M, if x.2 then x.1.length else 0⟩ : dir_component) T default
      rwa [length_layout_marked] at this
    rw [hlay, List.length_append, List.length_singleton, scan_back, hget]
    obtain ⟨c, b⟩ := x
    by_cases hlive : b = true ∧ c ≠ []
    · obtain ⟨hb, hc⟩ := hlive
      subst hb
      have hpos : 0 < c.length := List.length_pos.mpr hc
      simp only [if_true, hpos]
      constructor
      · intro h
        simp [survivors, hc] at h
      · intro _
        exact ⟨M, c, [], by simp, hc, by simp [survivors], rfl⟩
    · have hzero : (if b = true then c.length else 0) = 0 := by
        by_cases hb : b = true
        · have : c = [] := by
            by_contra hne; exact hlive ⟨hb, hne⟩
          simp [this]
        · simp [hb]
      have hsx : survivors [(c, b)] = [] := by
        by_cases hb : b = true
        · have : c = [] := by
            by_contra hne; exact hlive ⟨hb, hne⟩
          simp [survivors, this]
        · simp [survivors, hb]
      simp only [hzero, Nat.lt_irrefl, if_false, survivors_append, hsx, List.append_nil]
      obtain ⟨ih1, ih2⟩ := ih (⟨o + span M, 0⟩ :: T)
      refine ⟨ih1, fun h => ?_⟩
      obtain ⟨A, c', B, hM, hc', hB, hs⟩ := ih2 h
      refine ⟨A, c', B ++ [(c, b)], by simp [hM], hc', by simp [survivors_append, hB, hsx], hs⟩

theorem peek_add (buf : List Char) (o k : Nat) :
    peek buf (o + k) = (buf.drop o).getD k NUL := by
  simp [peek, List.getD_eq_getElem?_getD, List.getElem?_drop]

theorem dot_test (buf : List Char) (o : Nat) (c : List Char)
    (h : (buf.drop o).take c.length = c) :
    (c.length = 1 ∧ peek buf o = '.') ↔ c = ['.'] := by
  have hp := peek_add buf o 0
  rw [Nat.add_zero] at hp
  rw [hp]
  constructor
  · rintro ⟨hl, hd⟩
    rw [hl] at h
    cases hb : buf.drop o with
    | nil => rw [hb] at h; simp at h; subst h; simp at hl
    | cons y ys =>
      rw [hb] at h hd
      simp at h hd
      rw [← h, hd]
  · intro hc
    subst hc
    cases hb : buf.drop o with
    | nil => rw [hb] at h; simp at h
    | cons y ys =>
      rw [hb] at h
      simp at h
      simp [h]

theorem dotdot_test (buf : List Char) (o : Nat) (c : List Char)
    (h : (buf.drop o).take c.length = c) :
    (c.length = 2 ∧ peek buf o = '.' ∧ peek buf (o + 1) = '.') ↔ c = ['.', '.'] := by
  have hp := peek_add buf o 0
  rw [Nat.add_zero] at hp
  rw [hp, peek_add buf o 1]
  constructor
  · rintro ⟨hl, hd, hd2⟩
    rw [hl] at h
    cases hb : buf.drop o with
    | nil => rw [hb] at h; simp at h; subst h; simp at hl
    | cons y ys =>
      cases ys with
      | nil => rw [hb] at h; simp at h; subst h; simp at hl
      | cons z zs =>
        rw [hb] at h hd hd2
        simp at h hd hd2
        rw [← h, hd, hd2]
  · intro hc
    subst hc
    cases hb : buf.drop o with
    | nil => rw [hb] at h; simp at h
    | cons y ys =>
      cases ys with
      | nil => rw [hb] at h; simp at h
      | cons z zs =>
        rw [hb] at h
        simp at h
        simp [h]

theorem layout_marked_mid (path : Nat) (M : List (List Char × Bool)) (c : List Char) (b : Bool)
    (R : List (List Char × Bool)) :
    layout_marked path (M ++ (c, b) :: R)
      = layout_marked path M ++ ⟨path + span M, if b then c.length else 0⟩ ::
          layout_marked (path + span M + c.length + 1) R := by
  rw [layout_marked_append, layout_marked]

theorem getD_layout_marked_mid (path : Nat) (M : List (List Char × Bool)) (c : List Char)
    (b : Bool) (R : List (List Char × Bool)) :
    (layout_marked path (M ++ (c, b) :: R)).getD M.length default
      = ⟨path + span M, if b then c.length else 0⟩ := by
  rw [layout_marked_mid]
  have := getD_append_length (layout_marked path M)
    (⟨path + span M, if b then c.length else 0⟩ : dir_component)
    (layout_marked (path + span M + c.length + 1) R) default
  rwa [length_layout_marked] at this

theorem set_len_layout_marked_mid (path : Nat) (M : List (List Char × Bool)) (c : List Char)
    (b : Bool) (R : List (List Char × Bool)) :
    set_len (layout_marked path (M ++ (c, b) :: R)) M.length 0
      = layout_marked path (M ++ (c, false) :: R) := by
  rw [set_len, getD_layout_marked_mid, layout_marked_mid, layout_marked_mid]
  have := set_append_length (layout_marked path M)
    (⟨path + span M, if b then c.length else 0⟩ : dir_component) ⟨path + span M, 0⟩
    (layout_marked (path + span M + c.length + 1) R)
  rw [length_layout_marked] at this
  simpa using this

theorem survivors_snoc_dead (M : List (List Char × Bool)) (c : List Char) :
    survivors (M ++ [(c, false)]) = survivors M := by
  simp [survivors]

theorem survivors_snoc_empty (M : List (List Char × Bool)) (b : Bool) :
    survivors (M ++ [([], b)]) = survivors M := by
  simp [survivors]

theorem survivors_snoc_live (M : List (List Char × Bool)) (c : List Char) (hc : c ≠ []) :
    survivors (M ++ [(c, true)]) = survivors M ++ [c] := by
  simp [survivors, hc]

theorem resolve_loop_marked (buf : List Char) (path : Nat) :
    ∀ (todo : List (List Char)) (M : List (List Char × Bool)),
      stored buf (path + span M) todo →
      (walk (survivors M) todo = none →
        resolve_loop buf todo.length M.length
          (layout_marked path (M ++ todo.map (fun c => (c, true)))) = none) ∧
      (∀ st, walk (survivors M) todo = some st →
        ∃ M', resolve_loop buf todo.length M.length
            (layout_marked path (M ++ todo.map (fun c => (c, true)))) = some (layout_marked path M')
          ∧ M'.map Prod.fst = M.map Prod.fst ++ todo ∧ survivors M' = st) := by
  intro todo
  induction todo with
  | nil =>
    intro M _
    constructor
    · intro h; simp [walk] at h
    · intro st h
      simp only [walk, Option.some.injEq] at h
      exact ⟨M, by simp [resolve_loop], by simp, h⟩
  | cons c rest ih =>
    intro M hst
    obtain ⟨htxt, hrest⟩ := hst
    have hdot := dot_test buf (path + span M) c htxt
    have hdd := dotdot_test buf (path + span M) c htxt
    have hget := getD_layout_marked_mid path M c true (rest.map (fun c => (c, true)))
    have hset := set_len_layout_marked_mid path M c true (rest.map (fun c => (c, true)))
    simp only [if_true] at hget
    have hcat : ∀ (X : List (List Char × Bool)) (b : Bool),
        X ++ (c, b) :: rest.map (fun c => (c, true))
          = (X ++ [(c, b)]) ++ rest.map (fun c => (c, true)) := by
      intro X b; simp
    have hspan : ∀ (X : List (List Char × Bool)) (b : Bool), span X = span M →
        stored buf (path + span (X ++ [(c, b)])) rest := by
      intro X b hX
      rw [span_append, hX]
      simp only [span]
      rw [show path + (span M + (c.length + 1 + 0)) = path + span M + c.length + 1 by omega]
      exact hrest
    rw [List.map_cons, List.length_cons, resolve_loop]
    simp only [hget]
    by_cases h1 : c = ['.']
    · rw [if_pos (hdot.mpr h1), hset, hcat]
      have := ih (M ++ [(c, false)]) (hspan M false rfl)
      rw [survivors_snoc_dead, List.length_append, List.length_singleton] at this
      have hw : walk (survivors M) (c :: rest) = walk (survivors M) rest := by
        simp [walk, h1]
      rw [hw]
      refine ⟨this.1, fun st h => ?_⟩
      obtain ⟨M', e1, e2, e3⟩ := this.2 st h
      exact ⟨M', e1, by simp [e2], e3⟩
    · rw [if_neg (fun h => h1 (hdot.mp h))]
      by_cases h2 : c = ['.', '.']
      · rw [if_pos (hdd.mpr h2), hset]
        have hsc := scan_back_marked path M
          (⟨path + span M, 0⟩ :: layout_marked (path + span M + c.length + 1)
            (rest.map (fun c => (c, true))))
        have hmid := layout_marked_mid path M c false (rest.map (fun c => (c, true)))
        simp only [Bool.false_eq_true, if_false] at hmid
        rw [← hmid] at hsc
        by_cases hs : survivors M = []
        · rw [hsc.1 hs]
          have hw : walk (survivors M) (c :: rest) = none := by
            simp [walk, h2, hs]
          rw [hw]
          exact ⟨fun _ => rfl, fun st h => by simp at h⟩
        · obtain ⟨A, c', B, hM, hc', hB, hsome⟩ := hsc.2 hs
          rw [hsome]
          have hsurvA : survivors M = survivors A ++ [c'] := by
            rw [hM, survivors_append]
            have : (c', true) :: B = [(c', true)] ++ B := rfl
            rw [this, survivors_append, hB]
            simp [survivors, hc']
          have hw : walk (survivors M) (c :: rest) = walk (survivors A) rest := by
            rw [hsurvA]
            simp [walk, h2]
          rw [hw]
          have hre : M ++ (c, false) :: rest.map (fun c => (c, true))
              = A ++ (c', true) :: (B ++ (c, false) :: rest.map (fun c => (c, true))) := by
            rw [hM]; simp
          have hkill : set_len (layout_marked path
                (M ++ (c, false) :: rest.map (fun c => (c, true)))) A.length 0
              = layout_marked path ((A ++ (c', false) :: B ++ [(c, false)])
                  ++ rest.map (fun c => (c, true))) := by
            rw [hre, set_len_layout_marked_mid]
            simp
          simp only []
          rw [hkill]
          have hsp : span (A ++ (c', false) :: B) = span M := by
            rw [hM, span_append, span_append]; simp [span]
          have hlen : (A ++ (c', false) :: B ++ [(c, false)]).length = M.length + 1 := by
            rw [hM]; simp; omega
          have hsv : survivors (A ++ (c', false) :: B ++ [(c, false)]) = survivors A := by
            have : A ++ (c', false) :: B ++ [(c, false)]
                = A ++ ([(c', false)] ++ (B ++ [(c, false)])) := by simp
            rw [this, survivors_append, survivors_append, survivors_append, hB]
            simp [survivors]
          have hst' : stored buf (path + span (A ++ (c', false) :: B ++ [(c, false)])) rest := by
            have := hspan (A ++ (c', false) :: B) false hsp
            simpa using this
          have := ih (A ++ (c', false) :: B ++ [(c, false)]) hst'
          rw [hsv, hlen] at this
          refine ⟨this.1, fun st h => ?_⟩
          obtain ⟨M', e1, e2, e3⟩ := this.2 st h
          refine ⟨M', e1, ?_, e3⟩
          rw [e2, hM]; simp
      · rw [if_neg (fun h => h2 (hdd.mp h))]
        by_cases h0 : c = []
        · have := ih (M ++ [(c, true)]) (hspan M true rfl)
          rw [hcat]
          subst h0
          rw [survivors_snoc_empty, List.length_append, List.length_singleton] at this
          have hw : walk (survivors M) ([] :: rest) = walk (survivors M) rest := by
            simp [walk]
          rw [hw]
          refine ⟨this.1, fun st h => ?_⟩
          obtain ⟨M', e1, e2, e3⟩ := this.2 st h
          exact ⟨M', e1, by simp [e2], e3⟩
        · have := ih (M ++ [(c, true)]) (hspan M true rfl)
          rw [hcat]
          rw [survivors_snoc_live _ _ h0, List.length_append, List.length_singleton] at this
          have hw : walk (survivors M) (c :: rest) = walk (survivors M ++ [c]) rest := by
            simp [walk, h0, h1, h2]
          rw [hw]
          refine ⟨this.1, fun st h => ?_⟩
          obtain ⟨M', e1, e2, e3⟩ := this.2 st h
          exact ⟨M', e1, by simp [e2], e3⟩

theorem join_with_cons (sep : Char) (c : List Char) (t : List (List Char)) :
    join_with sep (c :: t) = c ++ tail_str sep t := by
  induction t generalizing c with
  | nil => simp [join_with, tail_str]
  | cons d t ih => rw [join_with, ih, tail_str]; simp

theorem copy_loop_eq : ∀ (w F G T : List Char),
    ∃ X, X.length = G.length ∧
      copy_loop w.length (F.length + G.length) F.length (F ++ G ++ w ++ T)
        = (F.length + w.length, F ++ w ++ X ++ T) := by
  intro w
  induction w with
  | nil => intro F G T; exact ⟨G, rfl, by simp [copy_loop]⟩
  | cons a w ih =>
    intro F G T
    have hpeek : peek (F ++ G ++ a :: w ++ T) (F.length + G.length) = a := by
      have := getD_append_length (F ++ G) a (w ++ T) NUL
      simpa [peek] using this
    rw [List.length_cons, copy_loop, hpeek]
    cases G with
    | nil =>
      have hset : (F ++ [] ++ a :: w ++ T).set F.length a = (F ++ [a]) ++ [] ++ w ++ T := by
        have := set_append_length F a a (w ++ T)
        simp [this]
      rw [hset]
      obtain ⟨X, hX, hcopy⟩ := ih (F ++ [a]) [] T
      refine ⟨X, hX, ?_⟩
      simp only [List.length_append, List.length_singleton, List.length_nil, Nat.add_zero,
        List.length_cons] at hcopy ⊢
      rw [hcopy]
      simp
      omega
    | cons g G1 =>
      have hset : (F ++ g :: G1 ++ a :: w ++ T).set F.length a
          = (F ++ [a]) ++ (G1 ++ [a]) ++ w ++ T := by
        have := set_append_length F g a (G1 ++ a :: w ++ T)
        simp [this]
      rw [hset]
      obtain ⟨X, hX, hcopy⟩ := ih (F ++ [a]) (G1 ++ [a]) T
      refine ⟨X, by simpa using hX, ?_⟩
      simp only [List.length_append, List.length_singleton, List.length_cons, List.length_nil,
        Nat.zero_add] at hcopy ⊢
      rw [show F.length + (G1.length + 1) + 1 = F.length + 1 + (G1.length + 1) by omega, hcopy]
      simp
      omega

theorem survivors_cons_dead (c : List Char) (b : Bool) (M : List (List Char × Bool))
    (h : ¬ (b = true ∧ c ≠ [])) : survivors ((c, b) :: M) = survivors M := by
  by_cases hb : b = true
  · have : c = [] := by
      by_contra hne; exact h ⟨hb, hne⟩
    simp [survivors, this]
  · simp [survivors, hb]

theorem survivors_cons_live (c : List Char) (M : List (List Char × Bool)) (hc : c ≠ []) :
    survivors ((c, true) :: M) = c :: survivors M := by
  simp [survivors, hc]

theorem emit_loop_marked (sep : Char) :
    ∀ (M : List (List Char × Bool)) (P : List dir_component) (F G tx : List Char)
      (first_dir : Bool) (o p : Nat),
      o = F.length + G.length → p = F.length → laid (M.map Prod.fst) tx → (first_dir = false → G ≠ []) →
      ∃ X, emit_loop sep (P ++ layout_marked o M) M.length P.length p first_dir (F ++ G ++ tx)
            = (F.length + (render sep first_dir (survivors M)).length,
                F ++ render sep first_dir (survivors M) ++ X)
          ∧ X.length + (render sep first_dir (survivors M)).length = G.length + tx.length
          ∧ (M ≠ [] ∨ G ≠ [] → X ≠ []) := by
  intro M
  induction M with
  | nil =>
    intro P F G tx first_dir o p _ hp _ _
    refine ⟨G ++ tx, ?_, ?_, ?_⟩
    · subst hp
      cases first_dir <;> simp [emit_loop, render, survivors, join_with, tail_str]
    · cases first_dir <;> simp [render, survivors, join_with, tail_str]
    · intro h
      rcases h with h | h
      · exact absurd rfl h
      · simp [h]
  | cons x M ih =>
    intro P F G tx first_dir o p ho hp hlaid hG
    obtain ⟨c, b⟩ := x
    obtain ⟨a, tx', htx, hlaid'⟩ := hlaid
    simp only at htx
    subst htx hp
    have hget : (P ++ layout_marked o ((c, b) :: M)).getD P.length default
        = ⟨o, if b then c.length else 0⟩ := by
      rw [layout_marked]
      exact getD_append_length P _ _ default
    have hdirs : P ++ layout_marked o ((c, b) :: M)
        = (P ++ [⟨o, if b then c.length else 0⟩]) ++ layout_marked (o + c.length + 1) M := by
      rw [layout_marked]; simp
    rw [List.length_cons, emit_loop]
    simp only [hget]
    rw [hdirs]
    by_cases hlive : b = true ∧ c ≠ []
    · obtain ⟨hb, hc⟩ := hlive
      subst hb
      have hpos : 0 < c.length := List.length_pos.mpr hc
      simp only [if_true, hpos]
      rw [survivors_cons_live c M hc]
      cases first_dir with
      | true =>
        simp only [if_true]
        obtain ⟨X1, hX1, hcopy⟩ := copy_loop_eq c F G (a :: tx')
        have hbuf : F ++ G ++ (c ++ a :: tx') = F ++ G ++ c ++ a :: tx' := by simp
        rw [hbuf, ho, hcopy]
        have hbuf2 : F ++ c ++ X1 ++ a :: tx' = (F ++ c) ++ (X1 ++ [a]) ++ tx' := by simp
        simp only []
        rw [hbuf2]
        obtain ⟨X, hX, hlen, hne⟩ := ih (P ++ [⟨F.length + G.length, c.length⟩]) (F ++ c)
          (X1 ++ [a]) tx' false (F.length + G.length + c.length + 1) (F.length + c.length)
          (by simp [hX1]; omega) (by simp) hlaid' (by simp)
        rw [List.length_append, List.length_singleton] at hX
        rw [hX]
        refine ⟨X, ?_, ?_, fun _ => hne (Or.inr (by simp))⟩
        · simp [render, join_with_cons]; omega
        · simp [render, join_with_cons] at hlen ⊢; omega
      | false =>
        obtain ⟨g, G1, rfl⟩ : ∃ g G1, G = g :: G1 := by
          cases G with
          | nil => exact absurd rfl (hG rfl)
          | cons g G1 => exact ⟨g, G1, rfl⟩
        simp only [Bool.false_eq_true, if_false]
        have hset : (F ++ g :: G1 ++ (c ++ a :: tx')).set F.length sep
            = (F ++ [sep]) ++ G1 ++ c ++ a :: tx' := by
          have := set_append_length F g sep (G1 ++ (c ++ a :: tx'))
          simp [this]
        obtain ⟨X1, hX1, hcopy⟩ := copy_loop_eq c (F ++ [sep]) G1 (a :: tx')
        rw [hset, ho]
        simp only [List.length_append, List.length_singleton, List.length_cons, List.length_nil,
          Nat.zero_add] at hcopy ⊢
        rw [show F.length + (G1.length + 1) = F.length + 1 + G1.length by omega, hcopy]
        have hbuf2 : F ++ [sep] ++ c ++ X1 ++ a :: tx'
            = (F ++ [sep] ++ c) ++ (X1 ++ [a]) ++ tx' := by simp
        simp only []
        rw [hbuf2]
        obtain ⟨X, hX, hlen, hne⟩ := ih (P ++ [⟨F.length + 1 + G1.length, c.length⟩])
          (F ++ [sep] ++ c) (X1 ++ [a]) tx' false (F.length + 1 + G1.length + c.length + 1)
          (F.length + 1 + c.length)
          (by simp [hX1]; omega) (by simp; omega) hlaid' (by simp)
        rw [List.length_append, List.length_singleton] at hX
        rw [hX]
        refine ⟨X, ?_, ?_, fun _ => hne (Or.inr (by simp))⟩
        · simp [render, tail_str]; omega
        · simp [render, tail_str] at hlen ⊢; omega
    · have hzero : (if b = true then c.length else 0) = 0 := by
        by_cases hb : b = true
        · have : c = [] := by
            by_contra hne; exact hlive ⟨hb, hne⟩
          simp [this]
        · simp [hb]
      simp only [hzero, Nat.lt_irrefl, if_false]
      rw [survivors_cons_dead c b M hlive]
      have hbuf : F ++ G ++ (c ++ a :: tx') = F ++ (G ++ c ++ [a]) ++ tx' := by simp
      rw [hbuf]
      obtain ⟨X, hX, hlen, hne⟩ := ih (P ++ [⟨o, 0⟩]) F (G ++ c ++ [a]) tx' first_dir
        (o + c.length + 1) F.length (by simp [ho]; omega) rfl hlaid' (by simp)
      rw [List.length_append, List.length_singleton] at hX
      rw [hX]
      refine ⟨X, rfl, ?_, fun _ => hne (Or.inr (by simp))⟩
      simp at hlen ⊢; omega

theorem laid_split_on (sep : Char) (post : List Char) (a : Char) :
    ∀ s : List Char, laid (split_on sep s) (s ++ a :: post) := by
  intro s
  induction s with
  | nil => exact ⟨a, post, rfl, trivial⟩
  | cons c cs ih =>
    by_cases h : c = sep
    · subst h
      rw [split_on_cons_sep]
      exact ⟨c, cs ++ a :: post, rfl, ih⟩
    · obtain ⟨hd, tl, h1, h2⟩ := split_on_cons_ne h cs
      rw [h2]
      rw [h1] at ih
      obtain ⟨a', tx', htx, hl⟩ := ih
      exact ⟨a', tx', by simp [htx], hl⟩

theorem stored_of_laid : ∀ (cs : List (List Char)) (pre tx : List Char),
    laid cs tx → stored (pre ++ tx) pre.length cs := by
  intro cs
  induction cs with
  | nil => intro _ _ _; trivial
  | cons c rest ih =>
    intro pre tx h
    obtain ⟨a, tx', htx, hl⟩ := h
    subst htx
    refine ⟨by simp, ?_⟩
    have := ih (pre ++ c ++ [a]) tx' hl
    simp only [List.length_append, List.length_singleton, List.append_assoc,
      List.singleton_append] at this
    simpa using this

theorem split_path_eq (sep : Char) (pre s post : List Char) (hs : NUL ∉ s) (hsep : sep ≠ NUL) :
    split_path sep (pre ++ s ++ NUL :: post) pre.length
      = ((split_on sep s).length,
          layout_marked pre.length ((split_on sep s).map (fun c => (c, true)))) := by
  have hdrop : (pre ++ s ++ NUL :: post).drop pre.length = s ++ NUL :: post := by simp
  have hcount := count_loop_eq sep post s hs 1
  have hsplit := split_loop_eq sep hsep post s hs [] pre.length 0 (s.count sep) (Nat.le_refl _)
  simp only [List.length_nil, Nat.add_zero, Nat.zero_add, List.nil_append, Nat.sub_self,
    List.replicate_zero, List.append_nil] at hsplit
  have hrep : (List.replicate (1 + s.count sep) (default : dir_component)).set 0 ⟨pre.length, 0⟩
      = ⟨pre.length, 0⟩ :: List.replicate (s.count sep) default := by
    rw [Nat.add_comm, List.replicate_succ, List.set_cons_zero]
  simp only [split_path, hdrop, hcount, hrep, hsplit, split_on_length, layout_from_zero]

theorem peek_path (sep : Char) (pre s post : List Char) (hs : NUL ∉ s) (hsep : sep ≠ NUL) :
    peek (pre ++ s ++ NUL :: post) pre.length = sep ↔ s.head? = some sep := by
  cases s with
  | nil =>
    have := getD_append_length pre NUL post NUL
    simp only [List.append_nil, peek, this]
    simp [Ne.symm hsep]
  | cons c cs =>
    have := getD_append_length pre c (cs ++ NUL :: post) NUL
    simp only [peek, List.append_assoc, List.cons_append, this]
    simp

theorem resolve_path_eq (sep : Char) (pre s post : List Char) (hs : NUL ∉ s) (hsep : sep ≠ NUL) :
    (walk [] (split_on sep s) = none →
      resolve_path sep (pre ++ s ++ NUL :: post) pre.length = none) ∧
    (∀ st, walk [] (split_on sep s) = some st →
      ∃ M, resolve_path sep (pre ++ s ++ NUL :: post) pre.length
            = some (layout_marked pre.length M)
        ∧ M.map Prod.fst = split_on sep s ∧ survivors M = st) := by
  have hst : stored (pre ++ s ++ NUL :: post) (pre.length + span []) (split_on sep s) := by
    have := stored_of_laid (split_on sep s) pre (s ++ NUL :: post) (laid_split_on sep post NUL s)
    simpa [span] using this
  have := resolve_loop_marked (pre ++ s ++ NUL :: post) pre.length (split_on sep s) [] hst
  simp only [resolve_path, split_path_eq sep pre s post hs hsep]
  simpa [survivors] using this

theorem body_spec (sep : Char) (pre s post : List Char) (hs : NUL ∉ s) (hsep : sep ≠ NUL) :
    (reference sep s = none →
      canonicalize_body sep (pre ++ s ++ NUL :: post) pre.length
        = ⟨false, pre ++ s ++ NUL :: post⟩) ∧
    (∀ out, reference sep s = some out →
      ∃ X, canonicalize_body sep (pre ++ s ++ NUL :: post) pre.length
            = ⟨true, pre ++ out ++ NUL :: X⟩
        ∧ out.length + X.length = s.length + post.length) := by
  obtain ⟨hnone, hsome⟩ := resolve_path_eq sep pre s post hs hsep
  constructor
  · intro href
    have hw : walk [] (split_on sep s) = none := by
      simpa [reference] using href
    simp only [canonicalize_body, hnone hw]
  · intro out href
    obtain ⟨st, hw, hout⟩ : ∃ st, walk [] (split_on sep s) = some st
        ∧ out = lead sep s ++ join_with sep st := by
      cases hw : walk [] (split_on sep s) with
      | none => simp [reference, hw] at href
      | some st => exact ⟨st, rfl, by simpa [reference, hw, eq_comm] using href⟩
    obtain ⟨M, hres, hM, hsv⟩ := hsome st hw
    have hlen : (split_path sep (pre ++ s ++ NUL :: post) pre.length).1 = M.length := by
      rw [split_path_eq sep pre s post hs hsep, ← hM]; simp
    simp only [canonicalize_body, hres, hlen]
    have hpk := peek_path sep pre s post hs hsep
    by_cases habs : s.head? = some sep
    · rw [if_pos (hpk.mpr habs)]
      obtain ⟨s', rfl⟩ : ∃ s', s = sep :: s' := by
        cases s with
        | nil => simp at habs
        | cons c cs => simp at habs; exact ⟨cs, by rw [habs]⟩
      rw [split_on_cons_sep] at hM
      obtain ⟨x, M', rfl⟩ : ∃ x M', M = x :: M' := by
        cases M with
        | nil => simp at hM
        | cons x M' => exact ⟨x, M', rfl⟩
      obtain ⟨c0, b0⟩ := x
      simp only [List.map_cons, List.cons.injEq] at hM
      obtain ⟨hc0, hM'⟩ := hM
      subst hc0
      have hne : M' ≠ [] := by
        intro h; rw [h] at hM'
        exact split_on_ne_nil sep s' hM'.symm
      have hlaid : laid (M'.map Prod.fst) (s' ++ NUL :: post) := by
        rw [hM']; exact laid_split_on sep post NUL s'
      obtain ⟨X, hX, hXlen, hXne⟩ := emit_loop_marked sep M' [⟨pre.length, 0⟩] (pre ++ [sep]) []
        (s' ++ NUL :: post) true (pre.length + 0 + 1) (pre.length + 1) (by simp) (by simp) hlaid
        (by simp)
      have hstep : emit_loop sep (layout_marked pre.length (([], b0) :: M')) (([], b0) :: M').length
            0 (pre.length + 1) true (pre ++ sep :: s' ++ NUL :: post)
          = emit_loop sep ([⟨pre.length, 0⟩] ++ layout_marked (pre.length + 0 + 1) M') M'.length
              [(⟨pre.length, 0⟩ : dir_component)].length (pre.length + 1) true
              (pre ++ [sep] ++ [] ++ (s' ++ NUL :: post)) := by
        rw [List.length_cons, emit_loop]
        simp [layout_marked]
      rw [hstep, hX]
      have hsv' : survivors M' = st := by
        rw [← hsv, survivors_cons_dead [] b0 M' (by simp)]
      obtain ⟨x, X', rfl⟩ : ∃ x X', X = x :: X' := by
        cases X with
        | nil => exact absurd rfl (hXne (Or.inl hne))
        | cons x X' => exact ⟨x, X', rfl⟩
      refine ⟨X', ?_, ?_⟩
      · have h1 : pre ++ sep :: (join_with sep st ++ x :: X')
            = (pre ++ sep :: join_with sep st) ++ x :: X' := by simp
        have h2 : pre.length + 1 + (join_with sep st).length
            = (pre ++ sep :: join_with sep st).length := by simp; omega
        simp [hout, hsv', render, lead]
        rw [h1, h2, set_append_length]
        simp
      · simp only [hout, lead, hsv', render, if_true] at hXlen ⊢
        simp at hXlen ⊢
        omega
    · rw [if_neg (fun h => habs (hpk.mp h))]
      have hne : M ≠ [] := by
        intro h; rw [h] at hM
        exact split_on_ne_nil sep s hM.symm
      have hlaid : laid (M.map Prod.fst) (s ++ NUL :: post) := by
        rw [hM]; exact laid_split_on sep post NUL s
      obtain ⟨X, hX, hXlen, hXne⟩ := emit_loop_marked sep M [] pre []
        (s ++ NUL :: post) true pre.length pre.length (by simp) rfl hlaid (by simp)
      simp only [List.nil_append, List.length_nil, List.append_nil] at hX
      rw [List.append_assoc, hX]
      obtain ⟨x, X', rfl⟩ : ∃ x X', X = x :: X' := by
        cases X with
        | nil => exact absurd rfl (hXne (Or.inl hne))
        | cons x X' => exact ⟨x, X', rfl⟩
      refine ⟨X', ?_, ?_⟩
      · simp [hout, hsv, render, lead, habs]
      · simp only [hout, lead, hsv, render, if_true, habs, if_false] at hXlen ⊢
        simp at hXlen ⊢
        omega

theorem c_str_append (out X : List Char) (h : NUL ∉ out) : c_str (out ++ NUL :: X) = out := by
  induction out with
  | nil => simp [c_str]
  | cons a out ih =>
    have ha : a ≠ NUL := fun e => h (by simp [e])
    have hout : NUL ∉ out := fun e => h (by simp [e])
    have := ih hout
    simp only [c_str] at this ⊢
    simp [List.takeWhile_cons, ha, this]

theorem not_mem_c_str (mem : List Char) : NUL ∉ c_str mem := by
  intro h
  have := List.mem_takeWhile_imp h
  simp at this

theorem split_on_mem (sep : Char) : ∀ (s : List Char) (c : List Char), c ∈ split_on sep s →
    sep ∉ c ∧ ∀ x ∈ c, x ∈ s := by
  intro s
  induction s with
  | nil => intro c hc; simp [split_on] at hc; subst hc; simp
  | cons a s ih =>
    intro c hc
    by_cases h : a = sep
    · subst h
      rw [split_on_cons_sep] at hc
      rcases List.mem_cons.mp hc with rfl | hc
      · simp
      · obtain ⟨h1, h2⟩ := ih c hc
        exact ⟨h1, fun x hx => List.mem_cons_of_mem _ (h2 x hx)⟩
    · obtain ⟨hd, tl, h1, h2⟩ := split_on_cons_ne h s
      rw [h2] at hc
      rcases List.mem_cons.mp hc with rfl | hc
      · obtain ⟨i1, i2⟩ := ih hd (by rw [h1]; simp)
        refine ⟨?_, ?_⟩
        · intro hm
          rcases List.mem_cons.mp hm with e | e
          · exact h e.symm
          · exact i1 e
        · intro x hx
          rcases List.mem_cons.mp hx with e | e
          · rw [e]; simp
          · exact List.mem_cons_of_mem _ (i2 x e)
      · obtain ⟨i1, i2⟩ := ih c (by rw [h1]; exact List.mem_cons_of_mem _ hc)
        exact ⟨i1, fun x hx => List.mem_cons_of_mem _ (i2 x hx)⟩

theorem walk_mem : ∀ (cs st st' : List (List Char)), walk st cs = some st' →
    ∀ n ∈ st', n ∈ st ∨ (n ∈ cs ∧ n ≠ [] ∧ n ≠ ['.'] ∧ n ≠ ['.', '.']) := by
  intro cs
  induction cs with
  | nil =>
    intro st st' h n hn
    simp only [walk, Option.some.injEq] at h
    subst h; exact Or.inl hn
  | cons c cs ih =>
    intro st st' h n hn
    rw [walk] at h
    by_cases h1 : c = [] ∨ c = ['.']
    · rw [if_pos h1] at h
      rcases ih st st' h n hn with r | r
      · exact Or.inl r
      · exact Or.inr ⟨List.mem_cons_of_mem _ r.1, r.2⟩
    · rw [if_neg h1] at h
      by_cases h2 : c = ['.', '.']
      · rw [if_pos h2] at h
        by_cases h3 : st = []
        · rw [if_pos h3] at h; simp at h
        · rw [if_neg h3] at h
          rcases ih _ st' h n hn with r | r
          · exact Or.inl (List.dropLast_subset _ r)
          · exact Or.inr ⟨List.mem_cons_of_mem _ r.1, r.2⟩
      · rw [if_neg h2] at h
        rcases ih _ st' h n hn with r | r
        · rcases List.mem_append.mp r with r | r
          · exact Or.inl r
          · simp only [List.mem_singleton] at r
            subst r
            push_neg at h1
            exact Or.inr ⟨List.mem_cons_self _ _, h1.1, h1.2, h2⟩
        · exact Or.inr ⟨List.mem_cons_of_mem _ r.1, r.2⟩

theorem walk_ordinary (sep : Char) (s : List Char) (st : List (List Char))
    (h : walk [] (split_on sep s) = some st) :
    ∀ n ∈ st, ordinary sep n ∧ ∀ x ∈ n, x ∈ s := by
  intro n hn
  rcases walk_mem _ _ _ h n hn with r | r
  · simp at r
  · obtain ⟨hm, h0, h1, h2⟩ := r
    obtain ⟨i1, i2⟩ := split_on_mem sep s n hm
    exact ⟨⟨h0, i1, h1, h2⟩, i2⟩

theorem mem_tail_str (sep : Char) (st : List (List Char)) (x : Char) (hx : x ∈ tail_str sep st) :
    x = sep ∨ ∃ n ∈ st, x ∈ n := by
  induction st with
  | nil => simp [tail_str] at hx
  | cons c t ih =>
    simp only [tail_str, List.cons_append, List.mem_cons, List.mem_append] at hx
    rcases hx with e | e | e
    · exact Or.inl e
    · exact Or.inr ⟨c, by simp, e⟩
    · rcases ih e with r | ⟨n, hn, hxn⟩
      · exact Or.inl r
      · exact Or.inr ⟨n, List.mem_cons_of_mem _ hn, hxn⟩

theorem mem_join_with (sep : Char) (st : List (List Char)) (x : Char) (hx : x ∈ join_with sep st) :
    x = sep ∨ ∃ n ∈ st, x ∈ n := by
  cases st with
  | nil => simp [join_with] at hx
  | cons c t =>
    rw [join_with_cons, List.mem_append] at hx
    rcases hx with e | e
    · exact Or.inr ⟨c, by simp, e⟩
    · rcases mem_tail_str sep t x e with r | ⟨n, hn, hxn⟩
      · exact Or.inl r
      · exact Or.inr ⟨n, List.mem_cons_of_mem _ hn, hxn⟩

theorem mem_reference (sep : Char) (s out : List Char) (h : reference sep s = some out) :
    ∀ x ∈ out, x ∈ s ∨ x = sep := by
  intro x hx
  cases hw : walk [] (split_on sep s) with
  | none => simp [reference, hw] at h
  | some st =>
    simp only [reference, hw, Option.map_some', Option.some.injEq] at h
    subst h
    rcases List.mem_append.mp hx with e | e
    · unfold lead at e
      split at e
      · simp only [List.mem_singleton] at e
        exact Or.inr e
      · simp at e
    · rcases mem_join_with sep st x e with r | ⟨n, hn, hxn⟩
      · exact Or.inr r
      · exact Or.inl ((walk_ordinary sep s st hw n hn).2 x hxn)

theorem not_mem_reference (sep : Char) (s out : List Char) (h : reference sep s = some out)
    (a : Char) (ha : a ∉ s) (hsep : sep ≠ a) : a ∉ out := by
  intro hm
  rcases mem_reference sep s out h a hm with r | r
  · exact ha r
  · exact hsep r.symm

theorem run_body_eq (sep : Char) (s : List Char) (hs : NUL ∉ s) (hsep : sep ≠ NUL) :
    run_body sep s = reference sep s := by
  have := body_spec sep [] s [] hs hsep
  simp only [List.nil_append, List.length_nil] at this
  cases href : reference sep s with
  | none => simp [run_body, this.1 href]
  | some out =>
    obtain ⟨X, hX, _⟩ := this.2 out href
    have hn : NUL ∉ out := not_mem_reference sep s out href NUL hs hsep
    simp [run_body, hX, c_str_append out X hn]

theorem slash_ne_NUL : '/' ≠ NUL := by decide

theorem backslash_ne_NUL : '\\' ≠ NUL := by decide

theorem run_path_eq (p : List Char) (hp : NUL ∉ p) :
    run_path p = if p = [] then none else reference '/' p := by
  cases p with
  | nil => simp [run_path, canonicalize_path, peek]
  | cons a p =>
    have ha : a ≠ NUL := fun e => hp (by simp [e])
    have hb := run_body_eq '/' (a :: p) hp slash_ne_NUL
    simp only [run_body, List.cons_append] at hb
    simp [run_path, canonicalize_path, peek, ha, hb]

theorem split_on_append_sep (sep : Char) (b : List Char) : ∀ a : List Char,
    split_on sep (a ++ sep :: b) = split_on sep a ++ split_on sep b := by
  intro a
  induction a with
  | nil => simp [split_on]
  | cons x a ih =>
    by_cases h : x = sep
    · subst h
      rw [List.cons_append, split_on_cons_sep, split_on_cons_sep, ih, List.cons_append]
    · obtain ⟨hd, tl, h1, h2⟩ := split_on_cons_ne h a
      obtain ⟨hd', tl', h1', h2'⟩ := split_on_cons_ne h (a ++ sep :: b)
      rw [List.cons_append, h2', h2]
      rw [ih, h1, List.cons_append] at h1'
      simp only [List.cons.injEq] at h1'
      rw [← h1'.1, ← h1'.2, List.cons_append]

theorem split_on_sep_free (sep : Char) : ∀ n : List Char, sep ∉ n → split_on sep n = [n] := by
  intro n
  induction n with
  | nil => intro _; rfl
  | cons x n ih =>
    intro h
    have hx : x ≠ sep := fun e => h (by simp [e])
    have hn : sep ∉ n := fun e => h (by simp [e])
    obtain ⟨hd, tl, h1, h2⟩ := split_on_cons_ne hx n
    rw [ih hn] at h1
    simp only [List.cons.injEq] at h1
    rw [h2, ← h1.1, ← h1.2]

theorem split_on_join (sep : Char) : ∀ (t : List (List Char)) (n : List Char),
    (∀ m ∈ n :: t, sep ∉ m) → split_on sep (join_with sep (n :: t)) = n :: t := by
  intro t
  induction t with
  | nil =>
    intro n h
    simp only [join_with]
    exact split_on_sep_free sep n (h n (by simp))
  | cons m t ih =>
    intro n h
    rw [join_with, split_on_append_sep, split_on_sep_free sep n (h n (by simp)),
      ih m (fun k hk => h k (List.mem_cons_of_mem _ hk))]
    rfl

theorem walk_append : ∀ (xs ys st : List (List Char)),
    walk st (xs ++ ys) = (walk st xs).bind (fun st' => walk st' ys) := by
  intro xs
  induction xs with
  | nil => intro ys st; simp [walk]
  | cons c xs ih =>
    intro ys st
    rw [List.cons_append, walk, walk]
    by_cases h1 : c = [] ∨ c = ['.']
    · rw [if_pos h1, if_pos h1, ih]
    · rw [if_neg h1, if_neg h1]
      by_cases h2 : c = ['.', '.']
      · rw [if_pos h2, if_pos h2]
        by_cases h3 : st = []
        · rw [if_pos h3, if_pos h3]; rfl
        · rw [if_neg h3, if_neg h3, ih]
      · rw [if_neg h2, if_neg h2, ih]

theorem walk_nil_cons (st rest : List (List Char)) : walk st ([] :: rest) = walk st rest := by
  simp [walk]

theorem walk_ordinary_names (sep : Char) : ∀ (names st : List (List Char)),
    (∀ n ∈ names, ordinary sep n) → walk st names = some (st ++ names) := by
  intro names
  induction names with
  | nil => intro st _; simp [walk]
  | cons c names ih =>
    intro st h
    obtain ⟨h0, _, h1, h2⟩ := h c (by simp)
    rw [walk, if_neg (by simp [h0, h1]), if_neg h2,
      ih (st ++ [c]) (fun n hn => h n (List.mem_cons_of_mem _ hn))]
    simp

theorem head_join_with (sep : Char) (names : List (List Char))
    (h : ∀ n ∈ names, ordinary sep n) : (join_with sep names).head? ≠ some sep := by
  cases names with
  | nil => simp [join_with]
  | cons c t =>
    obtain ⟨h0, hs, _, _⟩ := h c (by simp)
    rw [join_with_cons]
    cases c with
    | nil => exact absurd rfl h0
    | cons x c =>
      simp only [List.cons_append, List.head?_cons, ne_eq, Option.some.injEq]
      intro e; exact hs (by simp [e])

theorem join_with_eq_nil (sep : Char) (names : List (List Char))
    (h : ∀ n ∈ names, ordinary sep n) (he : join_with sep names = []) : names = [] := by
  cases names with
  | nil => rfl
  | cons c t =>
    obtain ⟨h0, _, _, _⟩ := h c (by simp)
    rw [join_with_cons] at he
    simp at he
    exact absurd he.1 h0

/-- The shape of every result of the reference. -/
theorem reference_shape (sep : Char) (s out : List Char) (h : reference sep s = some out) :
    ∃ names, (∀ n ∈ names, ordinary sep n ∧ ∀ x ∈ n, x ∈ s)
      ∧ walk [] (split_on sep s) = some names
      ∧ out = lead sep s ++ join_with sep names := by
  cases hw : walk [] (split_on sep s) with
  | none => simp [reference, hw] at h
  | some st =>
    simp only [reference, hw, Option.map_some', Option.some.injEq] at h
    exact ⟨st, walk_ordinary sep s st hw, rfl, h.symm⟩

theorem reference_of_names (sep : Char) (names : List (List Char))
    (h : ∀ n ∈ names, ordinary sep n) (abs : Bool) (hne : abs = true ∨ names ≠ []) :
    reference sep ((if abs then [sep] else []) ++ join_with sep names)
      = some ((if abs then [sep] else []) ++ join_with sep names) := by
  have hfree : ∀ n ∈ names, sep ∉ n := fun n hn => (h n hn).2.1
  cases abs with
  | true =>
    simp only [if_true, List.singleton_append]
    have hsplit : walk [] (split_on sep (sep :: join_with sep names)) = some names := by
      rw [split_on_cons_sep, walk_nil_cons]
      cases names with
      | nil => simp [join_with, split_on, walk]
      | cons c t =>
        rw [split_on_join sep t c hfree, walk_ordinary_names sep _ _ h]
        simp
    simp [reference, hsplit, lead]
  | false =>
    simp only [Bool.false_eq_true, if_false, List.nil_append]
    have hn : names ≠ [] := by
      rcases hne with e | e
      · simp at e
      · exact e
    obtain ⟨c, t, rfl⟩ : ∃ c t, names = c :: t := by
      cases names with
      | nil => exact absurd rfl hn
      | cons c t => exact ⟨c, t, rfl⟩
    have hhead := head_join_with sep (c :: t) h
    have hsplit : walk [] (split_on sep (join_with sep (c :: t))) = some (c :: t) := by
      rw [split_on_join sep t c hfree, walk_ordinary_names sep _ _ h]
      simp
    simp [reference, hsplit, lead, hhead]

theorem reference_idem (sep : Char) (s out : List Char) (h : reference sep s = some out)
    (hne : out ≠ []) : reference sep out = some out := by
  obtain ⟨names, hn, _, hout⟩ := reference_shape sep s out h
  have hord : ∀ n ∈ names, ordinary sep n := fun n hm => (hn n hm).1
  by_cases habs : s.head? = some sep
  · have := reference_of_names sep names hord true (Or.inl rfl)
    simp only [if_true] at this
    rw [hout]
    simpa [lead, habs] using this
  · have hl : lead sep s = [] := by simp [lead, habs]
    rw [hl, List.nil_append] at hout
    have hnn : names ≠ [] := by
      intro e; rw [e] at hout; simp [join_with] at hout; exact hne hout
    have := reference_of_names sep names hord false (Or.inr hnn)
    simp only [Bool.false_eq_true, if_false, List.nil_append] at this
    rw [hout]; exact this

theorem walk_none_iff : ∀ (cs st : List (List Char)),
    walk st cs = none ↔
      ∃ k, st.length + (cs.take k).countP is_name < (cs.take k).countP is_dotdot := by
  intro cs
  induction cs with
  | nil => intro st; simp [walk]
  | cons c cs ih =>
    intro st
    have hsplit : ∀ (Q : Nat → Prop), (∃ k, Q k) ↔ (Q 0 ∨ ∃ k, Q (k + 1)) := by
      intro Q
      constructor
      · rintro ⟨k, hk⟩
        cases k with
        | zero => exact Or.inl hk
        | succ k => exact Or.inr ⟨k, hk⟩
      · rintro (h | ⟨k, hk⟩)
        · exact ⟨0, h⟩
        · exact ⟨k + 1, hk⟩
    rw [hsplit]
    simp only [List.take_zero, List.countP_nil, Nat.add_zero, Nat.not_lt_zero, false_or,
      List.take_succ_cons, List.countP_cons]
    rw [walk]
    by_cases h1 : c = [] ∨ c = ['.']
    · rw [if_pos h1, ih]
      have hn : is_name c = false := by
        rcases h1 with e | e <;> simp [is_name, e]
      have hd : is_dotdot c = false := by
        rcases h1 with e | e <;> simp [is_dotdot, e]
      simp [hn, hd]
    · rw [if_neg h1]
      push_neg at h1
      by_cases h2 : c = ['.', '.']
      · rw [if_pos h2]
        have hn : is_name c = false := by simp [is_name, h2]
        have hd : is_dotdot c = true := by simp [is_dotdot, h2]
        simp only [hn, hd, if_true, Bool.false_eq_true, if_false, Nat.add_zero]
        by_cases h3 : st = []
        · rw [if_pos h3]
          subst h3
          simp only [true_iff]
          exact ⟨0, by simp⟩
        · rw [if_neg h3, ih]
          have hpos : 0 < st.length := List.length_pos.mpr h3
          simp only [List.length_dropLast]
          constructor
          · rintro ⟨k, hk⟩; exact ⟨k, by omega⟩
          · rintro ⟨k, hk⟩; exact ⟨k, by omega⟩
      · rw [if_neg h2, ih]
        have hn : is_name c = true := by simp [is_name, h1.1, h1.2, h2]
        have hd : is_dotdot c = false := by simp [is_dotdot, h2]
        simp only [hn, hd, if_true, Bool.false_eq_true, if_false, Nat.add_zero,
          List.length_append, List.length_singleton]
        constructor
        · rintro ⟨k, hk⟩; exact ⟨k, by omega⟩
        · rintro ⟨k, hk⟩; exact ⟨k, by omega⟩

theorem reference_length (sep : Char) (s out : List Char) (hs : NUL ∉ s) (hsep : sep ≠ NUL)
    (h : reference sep s = some out) : out.length ≤ s.length := by
  obtain ⟨X, _, hlen⟩ := (body_spec sep [] s [] hs hsep).2 out h
  simp at hlen
  omega

theorem reference_collapse (sep : Char) (a b : List Char) :
    reference sep (a ++ sep :: sep :: b) = reference sep (a ++ sep :: b) := by
  have hl : lead sep (a ++ sep :: sep :: b) = lead sep (a ++ sep :: b) := by
    cases a <;> simp [lead]
  simp only [reference, hl, split_on_append_sep, split_on_cons_sep, walk_append, walk_nil_cons]

theorem colon_ne_NUL : ':' ≠ NUL := by decide

theorem wcsstr_colon_none (post : List Char) : ∀ (s : List Char) (i : Nat),
    ':' ∉ s → wcsstr_colon (s ++ NUL :: post) i = none := by
  intro s
  induction s with
  | nil => intro i _; simp [wcsstr_colon]
  | cons a s ih =>
    intro i hc
    have ha : a ≠ ':' := fun e => hc (by simp [e])
    have hs : ':' ∉ s := fun e => hc (by simp [e])
    rw [List.cons_append, wcsstr_colon]
    by_cases hn : a = NUL
    · rw [if_pos hn]
    · rw [if_neg hn, if_neg ha, ih (i + 1) hs]

theorem wcsstr_colon_some (rest : List Char) : ∀ (v : List Char) (i : Nat),
    ':' ∉ v → NUL ∉ v → wcsstr_colon (v ++ ':' :: rest) i = some (i + v.length) := by
  intro v
  induction v with
  | nil => intro i _ _; simp [wcsstr_colon, colon_ne_NUL]
  | cons a v ih =>
    intro i hc hn
    have ha : a ≠ ':' := fun e => hc (by simp [e])
    have hv : ':' ∉ v := fun e => hc (by simp [e])
    have ha' : a ≠ NUL := fun e => hn (by simp [e])
    have hv' : NUL ∉ v := fun e => hn (by simp [e])
    rw [List.cons_append, wcsstr_colon, if_neg ha', if_neg ha, ih (i + 1) hv hv']
    simp; omega

theorem split_at_colon (x : List Char) (h : ':' ∈ x) :
    ∃ v, ':' ∉ v ∧ x = v ++ ':' :: after_colon x := by
  refine ⟨x.takeWhile (fun c => c != ':'), ?_, ?_⟩
  · intro hm
    have := List.mem_takeWhile_imp hm
    simp at this
  · have hne : x.dropWhile (fun c => c != ':') ≠ [] := by
      intro e
      rw [List.dropWhile_eq_nil_iff] at e
      have := e ':' h
      simp at this
    have hhead := List.head_dropWhile_not (fun c => c != ':') x hne
    simp only [bne_iff_ne, ne_eq, Bool.not_eq_true, bne_eq_false_iff_eq] at hhead
    have hd : x.dropWhile (fun c => c != ':')
        = ':' :: (x.dropWhile (fun c => c != ':')).drop 1 := by
      cases hdw : x.dropWhile (fun c => c != ':') with
      | nil => exact absurd hdw hne
      | cons y ys =>
        simp only [hdw, List.head_cons] at hhead
        simp [hhead]
    have := (List.takeWhile_append_dropWhile (fun c => c != ':') x).symm
    rw [hd] at this
    simp only [after_colon, h, if_true]
    exact this

theorem after_colon_append (v t : List Char) (hv : ':' ∉ v) : after_colon (v ++ ':' :: t) = t := by
  have hmem : ':' ∈ v ++ ':' :: t := by simp
  have hdw : (v ++ ':' :: t).dropWhile (fun c => c != ':') = ':' :: t := by
    induction v with
    | nil => simp
    | cons a v ih =>
      have ha : a ≠ ':' := fun e => hv (by simp [e])
      have hv' : ':' ∉ v := fun e => hv (by simp [e])
      simp [List.dropWhile_cons, ha, ih hv']
  simp only [after_colon, hmem, if_true, hdw]
  simp

theorem efi_no_colon (x : List Char) (hx : NUL ∉ x) (hc : ':' ∉ x) :
    canonicalize_efi_path (x ++ [NUL])
      = if x = [] then ⟨true, x ++ [NUL]⟩ else canonicalize_body '\\' (x ++ [NUL]) 0 := by
  have hw := wcsstr_colon_none [] x 0 hc
  cases x with
  | nil => simp [canonicalize_efi_path, hw, peek]
  | cons a x =>
    have ha : a ≠ NUL := fun e => hx (by simp [e])
    simp only [List.cons_append] at hw
    simp [canonicalize_efi_path, hw, peek, ha]

theorem efi_colon (v t : List Char) (hv : NUL ∉ v) (ht : NUL ∉ t) (hc : ':' ∉ v) :
    canonicalize_efi_path (v ++ ':' :: t ++ [NUL])
      = if t = [] then ⟨true, v ++ ':' :: t ++ [NUL]⟩
        else canonicalize_body '\\' (v ++ ':' :: t ++ [NUL]) (v.length + 1) := by
  have hw := wcsstr_colon_some (t ++ [NUL]) v 0 hc hv
  simp only [Nat.zero_add] at hw
  have hbuf : v ++ ':' :: t ++ [NUL] = v ++ ':' :: (t ++ [NUL]) := by simp
  have hpk : peek (v ++ ':' :: (t ++ [NUL])) (v.length + 1) = (t ++ [NUL]).headD NUL := by
    have h1 : v ++ ':' :: (t ++ [NUL]) = (v ++ [':']) ++ (t ++ [NUL]) := by simp
    have h2 : v.length + 1 = (v ++ [':']).length := by simp
    rw [h1, h2]
    cases t with
    | nil => exact getD_append_length (v ++ [':']) NUL [] NUL
    | cons a t => exact getD_append_length (v ++ [':']) a (t ++ [NUL]) NUL
  rw [hbuf]
  simp only [canonicalize_efi_path, hw, hpk]
  cases t with
  | nil => simp
  | cons a t =>
    have ha : a ≠ NUL := fun e => ht (by simp [e])
    simp [ha]

theorem run_efi_no_colon (x : List Char) (hx : NUL ∉ x) (hc : ':' ∉ x) :
    run_efi x = if x = [] then some [] else reference '\\' x := by
  have hb := run_body_eq '\\' x hx backslash_ne_NUL
  simp only [run_body] at hb
  simp only [run_efi, efi_no_colon x hx hc]
  by_cases h : x = []
  · subst h; simp [c_str]
  · rw [if_neg h, if_neg h]; exact hb

theorem run_efi_colon (v t : List Char) (hv : NUL ∉ v) (ht : NUL ∉ t) (hc : ':' ∉ v) :
    run_efi (v ++ ':' :: t)
      = if t = [] then some (v ++ [':'])
        else (reference '\\' t).map (fun c => v ++ ':' :: c) := by
  simp only [run_efi, efi_colon v t hv ht hc]
  by_cases h : t = []
  · subst h
    have hn : NUL ∉ v ++ [':'] := by
      simp [hv]; decide
    have := c_str_append (v ++ [':']) [] hn
    simp only [List.append_assoc, List.singleton_append] at this
    simp [this]
  · rw [if_neg h, if_neg h]
    have hspec := body_spec '\\' (v ++ [':']) t [] ht backslash_ne_NUL
    have hbuf : v ++ [':'] ++ t ++ [NUL] = v ++ ':' :: t ++ [NUL] := by simp
    have hlen : (v ++ [':']).length = v.length + 1 := by simp
    rw [hbuf, hlen] at hspec
    cases href : reference '\\' t with
    | none => rw [hspec.1 href]; simp
    | some out =>
      obtain ⟨X, hX, _⟩ := hspec.2 out href
      have hno : NUL ∉ out := not_mem_reference '\\' t out href NUL ht backslash_ne_NUL
      have hn : NUL ∉ v ++ [':'] ++ out := by
        simp [hv, hno]; decide
      have := c_str_append (v ++ [':'] ++ out) X hn
      rw [hX]
      simp only [if_true, this]
      simp

theorem survivors_of_all_zero : ∀ (M : List (List Char × Bool)) (o : Nat),
    (∀ d ∈ layout_marked o M, d.len = 0) → survivors M = [] := by
  intro M
  induction M with
  | nil => intro _ _; rfl
  | cons x M ih =>
    intro o h
    obtain ⟨c, b⟩ := x
    have h0 := h ⟨o, if b then c.length else 0⟩ (by simp [layout_marked])
    have hrest := ih (o + c.length + 1) (fun d hd => h d (by simp [layout_marked, hd]))
    have hdead : ¬ (b = true ∧ c ≠ []) := by
      rintro ⟨hb, hc⟩
      simp only [hb, if_true] at h0
      exact hc (List.length_eq_zero.mp h0)
    rw [survivors_cons_dead c b M hdead, hrest]

theorem join_with_no_double (sep : Char) (c : List Char) (t : List (List Char))
    (h : ∀ n ∈ c :: t, ordinary sep n) (a b : List Char) :
    join_with sep (c :: t) ≠ a ++ sep :: sep :: b := by
  intro e
  have hfree : ∀ n ∈ c :: t, sep ∉ n := fun n hn => (h n hn).2.1
  have hs := split_on_join sep t c hfree
  rw [e, split_on_append_sep, split_on_cons_sep] at hs
  have hmem : ([] : List Char) ∈ c :: t := by
    rw [← hs]; simp
  exact (h [] hmem).1 rfl

theorem join_with_no_trailing (sep : Char) (c : List Char) (t : List (List Char))
    (h : ∀ n ∈ c :: t, ordinary sep n) (a : List Char) :
    join_with sep (c :: t) ≠ a ++ [sep] := by
  intro e
  have hfree : ∀ n ∈ c :: t, sep ∉ n := fun n hn => (h n hn).2.1
  have hs := split_on_join sep t c hfree
  rw [e, split_on_append_sep] at hs
  have hmem : ([] : List Char) ∈ c :: t := by
    rw [← hs]; simp [split_on]
  exact (h [] hmem).1 rfl

/-- The splitter of the reference is the library's `List.splitOn`. -/
theorem split_on_eq_splitOn (sep : Char) (s : List Char) : split_on sep s = s.splitOn sep := by
  induction s with
  | nil => simp [split_on, List.splitOn]
  | cons c cs ih =>
    have hcons := List.splitOnP_cons (fun x => x == sep) c cs
    simp only [List.splitOn] at ih ⊢
    rw [hcons, ← ih]
    by_cases h : c = sep
    · subst h; simp [split_on_cons_sep]
    · obtain ⟨hd, tl, h1, h2⟩ := split_on_cons_ne h cs
      rw [h2, h1]
      simp [h, List.modifyHead]

/-- The joiner of the reference is the library's `List.intercalate`. -/
theorem join_with_eq_intercalate (sep : Char) (l : List (List Char)) :
    join_with sep l = List.intercalate [sep] l := by
  induction l with
  | nil => rfl
  | cons c t ih =>
    cases t with
    | nil => simp [join_with, List.intercalate]
    | cons d t =>
      rw [join_with, ih]
      simp [List.intercalate, List.intersperse]

theorem lead_append_sep (sep : Char) (a b : List Char) :
    lead sep (a ++ sep :: b) = if a = [] then [sep] else lead sep a := by
  cases a <;> simp [lead]

theorem reference_none_append (sep : Char) (p q : List Char) (h : reference sep p = none) :
    reference sep (p ++ sep :: q) = none := by
  have hw : walk [] (split_on sep p) = none := by
    simpa [reference] using h
  simp [reference, split_on_append_sep, walk_append, hw]

theorem reference_dot (sep : Char) (hsep : sep ≠ '.') (a b : List Char) :
    reference sep (a ++ sep :: '.' :: sep :: b) = reference sep (a ++ sep :: b) := by
  have hl : lead sep (a ++ sep :: '.' :: sep :: b) = lead sep (a ++ sep :: b) := by
    rw [lead_append_sep, lead_append_sep]
  have h1 : split_on sep ['.'] = [['.']] :=
    split_on_sep_free sep ['.'] (by simp [hsep])
  have hs : split_on sep ('.' :: sep :: b) = ['.'] :: split_on sep b := by
    have := split_on_append_sep sep b ['.']
    simpa [h1] using this
  have hw : ∀ st rest, walk st (['.'] :: rest) = walk st rest := by
    intro st rest; simp [walk]
  simp only [reference, hl, split_on_append_sep, hs, walk_append, hw]

theorem walk_name_dotdot (sep : Char) (n : List Char) (hn : ordinary sep n)
    (st rest : List (List Char)) : walk st (n :: ['.', '.'] :: rest) = walk st rest := by
  obtain ⟨h0, _, h1, h2⟩ := hn
  rw [walk, if_neg (by simp [h0, h1]), if_neg h2, walk, if_neg (by simp), if_pos rfl,
    if_neg (by simp)]
  simp

theorem reference_name_dotdot (sep : Char) (hsep : sep ≠ '.') (a b n : List Char)
    (hn : ordinary sep n) :
    reference sep (a ++ sep :: (n ++ sep :: '.' :: '.' :: sep :: b))
      = reference sep (a ++ sep :: b) := by
  have hl : lead sep (a ++ sep :: (n ++ sep :: '.' :: '.' :: sep :: b))
      = lead sep (a ++ sep :: b) := by
    rw [lead_append_sep, lead_append_sep]
  have h1 : split_on sep ['.', '.'] = [['.', '.']] :=
    split_on_sep_free sep ['.', '.'] (by simp [hsep])
  have h2 : split_on sep ('.' :: '.' :: sep :: b) = ['.', '.'] :: split_on sep b := by
    have := split_on_append_sep sep b ['.', '.']
    simpa [h1] using this
  have h3 : split_on sep (n ++ sep :: '.' :: '.' :: sep :: b)
      = n :: ['.', '.'] :: split_on sep b := by
    rw [split_on_append_sep, split_on_sep_free sep n hn.2.1, h2]
    rfl
  simp only [reference, hl, split_on_append_sep, h3, walk_append, walk_name_dotdot sep n hn]

/-- The walk over the components of a result of the reference gives back its names. -/
theorem walk_split_names (sep : Char) (names : List (List Char))
    (h : ∀ n ∈ names, ordinary sep n) (abs : Bool) (hne : abs = true ∨ names ≠ []) :
    walk [] (split_on sep ((if abs then [sep] else []) ++ join_with sep names)) = some names := by
  have hfree : ∀ n ∈ names, sep ∉ n := fun n hn => (h n hn).2.1
  cases abs with
  | true =>
    simp only [if_true, List.singleton_append]
    rw [split_on_cons_sep, walk_nil_cons]
    cases names with
    | nil => simp [join_with, split_on, walk]
    | cons c t =>
      rw [split_on_join sep t c hfree, walk_ordinary_names sep _ _ h]
      simp
  | false =>
    simp only [Bool.false_eq_true, if_false, List.nil_append]
    have hn : names ≠ [] := by
      rcases hne with e | e
      · simp at e
      · exact e
    obtain ⟨c, t, rfl⟩ : ∃ c t, names = c :: t := by
      cases names with
      | nil => exact absurd rfl hn
      | cons c t => exact ⟨c, t, rfl⟩
    rw [split_on_join sep t c hfree, walk_ordinary_names sep _ _ h]
    simp

theorem reference_compose (sep : Char) (p r q : List Char) (h : reference sep p = some r)
    (hp : p ≠ []) (hr : r ≠ []) :
    reference sep (p ++ sep :: q) = reference sep (r ++ sep :: q) := by
  obtain ⟨names, hn, hw, hout⟩ := reference_shape sep p r h
  have hord : ∀ n ∈ names, ordinary sep n := fun n hm => (hn n hm).1
  have hwr : walk [] (split_on sep r) = some names ∧ lead sep r = lead sep p := by
    by_cases habs : p.head? = some sep
    · have := walk_split_names sep names hord true (Or.inl rfl)
      simp only [if_true] at this
      have hl : lead sep p = [sep] := by simp [lead, habs]
      rw [hout, hl]
      exact ⟨this, by simp [lead]⟩
    · have hl : lead sep p = [] := by simp [lead, habs]
      rw [hl, List.nil_append] at hout
      have hnn : names ≠ [] := by
        intro e; rw [e] at hout; simp [join_with] at hout; exact hr hout
      have := walk_split_names sep names hord false (Or.inr hnn)
      simp only [Bool.false_eq_true, if_false, List.nil_append] at this
      rw [hout, hl]
      refine ⟨this, ?_⟩
      have hh := head_join_with sep names hord
      simp [lead, hh]
  have hl : lead sep (p ++ sep :: q) = lead sep (r ++ sep :: q) := by
    rw [lead_append_sep, lead_append_sep, if_neg hp, if_neg hr, hwr.2]
  simp only [reference, hl, split_on_append_sep, walk_append, hw, hwr.1]

theorem split_on_map (f : Char → Char) (sep sep' : Char) (hf : ∀ c, f c = sep' ↔ c = sep) :
    ∀ s : List Char, split_on sep' (s.map f) = (split_on sep s).map (List.map f) := by
  intro s
  induction s with
  | nil => rfl
  | cons c cs ih =>
    by_cases h : c = sep
    · have h' : f c = sep' := (hf c).mpr h
      subst h
      rw [List.map_cons, h', split_on_cons_sep, split_on_cons_sep, ih]
      rfl
    · have h' : f c ≠ sep' := fun e => h ((hf c).mp e)
      obtain ⟨hd, tl, h1, h2⟩ := split_on_cons_ne h cs
      obtain ⟨hd', tl', h1', h2'⟩ := split_on_cons_ne h' (cs.map f)
      rw [List.map_cons, h2', h2]
      rw [ih, h1] at h1'
      simp only [List.map_cons, List.cons.injEq] at h1'
      rw [← h1'.1, ← h1'.2]
      rfl

theorem map_eq_dot (f : Char → Char) (hdot : ∀ c, f c = '.' ↔ c = '.') (c : List Char) :
    (c.map f = ['.'] ↔ c = ['.']) ∧ (c.map f = ['.', '.'] ↔ c = ['.', '.']) := by
  constructor
  · cases c with
    | nil => simp
    | cons x c =>
      cases c with
      | nil => simp [hdot]
      | cons y c => simp
  · cases c with
    | nil => simp
    | cons x c =>
      cases c with
      | nil => simp
      | cons y c =>
        cases c with
        | nil => simp [hdot]
        | cons z c => simp

theorem walk_map (f : Char → Char) (hdot : ∀ c, f c = '.' ↔ c = '.') :
    ∀ (cs st : List (List Char)),
      walk (st.map (List.map f)) (cs.map (List.map f))
        = (walk st cs).map (List.map (List.map f)) := by
  intro cs
  induction cs with
  | nil => intro st; simp [walk]
  | cons c cs ih =>
    intro st
    obtain ⟨hd1, hd2⟩ := map_eq_dot f hdot c
    have hnil : c.map f = [] ↔ c = [] := by simp
    rw [List.map_cons, walk, walk]
    by_cases h1 : c = [] ∨ c = ['.']
    · have h1' : c.map f = [] ∨ c.map f = ['.'] := by
        rcases h1 with e | e
        · exact Or.inl (hnil.mpr e)
        · exact Or.inr (hd1.mpr e)
      rw [if_pos h1, if_pos h1', ih]
    · have h1' : ¬ (c.map f = [] ∨ c.map f = ['.']) := by
        rintro (e | e)
        · exact h1 (Or.inl (hnil.mp e))
        · exact h1 (Or.inr (hd1.mp e))
      rw [if_neg h1, if_neg h1']
      by_cases h2 : c = ['.', '.']
      · rw [if_pos h2, if_pos (hd2.mpr h2)]
        by_cases h3 : st = []
        · rw [if_pos h3, if_pos (by simp [h3])]; rfl
        · rw [if_neg h3, if_neg (by simp [h3])]
          have := ih st.dropLast
          rw [← this]
          congr 1
          simp [List.dropLast_eq_take, List.map_take]
      · rw [if_neg h2, if_neg (fun e => h2 (hd2.mp e))]
        have := ih (st ++ [c])
        rw [← this]
        simp

theorem tail_str_map (f : Char → Char) (sep : Char) (names : List (List Char)) :
    tail_str (f sep) (names.map (List.map f)) = (tail_str sep names).map f := by
  induction names with
  | nil => rfl
  | cons c t ih => simp [tail_str, ih]

theorem join_with_map (f : Char → Char) (sep : Char) (names : List (List Char)) :
    join_with (f sep) (names.map (List.map f)) = (join_with sep names).map f := by
  cases names with
  | nil => rfl
  | cons c t =>
    rw [List.map_cons, join_with_cons, join_with_cons, tail_str_map]
    simp

theorem reference_map (f : Char → Char) (sep : Char) (hf : ∀ c, f c = f sep ↔ c = sep)
    (hdot : ∀ c, f c = '.' ↔ c = '.') (s : List Char) :
    reference (f sep) (s.map f) = (reference sep s).map (List.map f) := by
  have hl : lead (f sep) (s.map f) = (lead sep s).map f := by
    cases s with
    | nil => simp [lead]
    | cons c s =>
      by_cases h : c = sep
      · simp [lead, h]
      · have h' : f c ≠ f sep := fun e => h ((hf c).mp e)
        simp [lead, h, h']
  have hw := walk_map f hdot (split_on sep s) []
  simp only [List.map_nil] at hw
  simp only [reference, split_on_map f sep (f sep) hf, hw, hl]
  cases walk [] (split_on sep s) with
  | none => rfl
  | some st => simp [join_with_map]

theorem swap_sep_slash (c : Char) : swap_sep c = swap_sep '/' ↔ c = '/' := by
  have e : swap_sep '/' = '\\' := by decide
  rw [e]
  unfold swap_sep
  by_cases h1 : c = '/'
  · simp [h1]
  · by_cases h2 : c = '\\'
    · subst h2; decide
    · simp [h1, h2]

theorem swap_sep_dot (c : Char) : swap_sep c = '.' ↔ c = '.' := by
  unfold swap_sep
  by_cases h1 : c = '/'
  · subst h1; decide
  · by_cases h2 : c = '\\'
    · subst h2; decide
    · simp [h1, h2]

theorem swap_sep_eq_iff (c a : Char) (ha : a ≠ '/') (ha' : a ≠ '\\') : swap_sep c = a ↔ c = a := by
  unfold swap_sep
  by_cases h1 : c = '/'
  · subst h1
    simp only [if_true]
    constructor
    · intro e; exact absurd e.symm ha'
    · intro e; exact absurd e.symm ha
  · by_cases h2 : c = '\\'
    · subst h2
      simp only [if_neg h1, if_true]
      constructor
      · intro e; exact absurd e.symm ha
      · intro e; exact absurd e.symm ha'
    · simp [h1, h2]

theorem not_mem_swap (s : List Char) (a : Char) (ha : a ≠ '/') (ha' : a ≠ '\\') (h : a ∉ s) :
    a ∉ swap s := by
  intro hm
  simp only [swap, List.mem_map] at hm
  obtain ⟨c, hc, e⟩ := hm
  rw [(swap_sep_eq_iff c a ha ha').mp e] at hc
  exact h hc

theorem join_split_on (sep : Char) : ∀ s : List Char, join_with sep (split_on sep s) = s := by
  intro s
  induction s with
  | nil => rfl
  | cons c cs ih =>
    by_cases h : c = sep
    · subst h
      rw [split_on_cons_sep, join_with_cons]
      cases hsp : split_on c cs with
      | nil => exact absurd hsp (split_on_ne_nil c cs)
      | cons hd tl =>
        rw [hsp, join_with_cons] at ih
        simp [tail_str, ih]
    · obtain ⟨hd, tl, h1, h2⟩ := split_on_cons_ne h cs
      rw [h1, join_with_cons] at ih
      rw [h2, join_with_cons, List.cons_append, ih]

theorem text_layout (buf : List Char) : ∀ (cs : List (List Char)) (o : Nat), stored buf o cs →
    (layout_marked o (cs.map (fun c => (c, true)))).map (text buf) = cs := by
  intro cs
  induction cs with
  | nil => intro _ _; rfl
  | cons c cs ih =>
    intro o h
    obtain ⟨h1, h2⟩ := h
    simp only [List.map_cons, layout_marked, if_true, text, h1, ih _ h2]

theorem canonicalize_path_fail_mem (buf : List Char) (h : (canonicalize_path buf).ok = false) :
    (canonicalize_path buf).mem = buf := by
  unfold canonicalize_path at h ⊢
  split
  · rfl
  · rename_i hne
    rw [if_neg hne] at h
    unfold canonicalize_body at h ⊢
    split
    · rfl
    · rename_i dirs hres
      simp [hres] at h

theorem split_loop_tr_fst (sep : Char) : ∀ (rest : List Char) (p n : Nat)
    (dirs : List dir_component),
    (split_loop_tr sep rest p n dirs).1 = split_loop sep rest p n dirs := by
  intro rest
  induction rest with
  | nil => intro p n dirs; rfl
  | cons c rest ih =>
    intro p n dirs
    rw [split_loop_tr, split_loop]
    by_cases h1 : c = NUL
    · rw [if_pos h1, if_pos h1]
    · rw [if_neg h1, if_neg h1]
      by_cases h2 : c = sep
      · rw [if_pos h2, if_pos h2]; exact ih _ _ _
      · rw [if_neg h2, if_neg h2]; exact ih _ _ _

theorem scan_back_tr_fst (dirs : List dir_component) : ∀ j : Nat,
    (scan_back_tr dirs j).1 = scan_back dirs j := by
  intro j
  induction j with
  | zero => rfl
  | succ j ih =>
    rw [scan_back_tr, scan_back]
    by_cases h : (dirs.getD j default).len > 0
    · rw [if_pos h, if_pos h]
    · rw [if_neg h, if_neg h]; exact ih

theorem resolve_loop_tr_fst (buf : List Char) : ∀ (k i : Nat) (dirs : List dir_component),
    (resolve_loop_tr buf k i dirs).1 = resolve_loop buf k i dirs := by
  intro k
  induction k with
  | zero => intro i dirs; rfl
  | succ k ih =>
    intro i dirs
    rw [resolve_loop_tr, resolve_loop]
    by_cases h1 : (dirs.getD i default).len = 1 ∧ peek buf (dirs.getD i default).dir = '.'
    · rw [if_pos h1, if_pos h1]; exact ih _ _
    · rw [if_neg h1, if_neg h1]
      by_cases h2 : (dirs.getD i default).len = 2 ∧ peek buf (dirs.getD i default).dir = '.'
          ∧ peek buf ((dirs.getD i default).dir + 1) = '.'
      · rw [if_pos h2, if_pos h2, ← scan_back_tr_fst]
        cases (scan_back_tr (set_len dirs i 0) i).1 with
        | none => rfl
        | some j => exact ih _ _
      · rw [if_neg h2, if_neg h2]; exact ih _ _

theorem copy_loop_tr_fst : ∀ (j q p : Nat) (buf : List Char),
    (copy_loop_tr j q p buf).1 = copy_loop j q p buf := by
  intro j
  induction j with
  | zero => intro q p buf; rfl
  | succ j ih => intro q p buf; rw [copy_loop_tr, copy_loop]; exact ih _ _ _

theorem emit_loop_tr_fst (sep : Char) (dirs : List dir_component) :
    ∀ (k i p : Nat) (first_dir : Bool) (buf : List Char),
      (emit_loop_tr sep dirs k i p first_dir buf).1 = emit_loop sep dirs k i p first_dir buf := by
  intro k
  induction k with
  | zero => intro i p first_dir buf; rfl
  | succ k ih =>
    intro i p first_dir buf
    rw [emit_loop_tr, emit_loop]
    by_cases h : (dirs.getD i default).len > 0
    · rw [if_pos h, if_pos h]
      simp only [copy_loop_tr_fst]
      exact ih _ _ _ _
    · rw [if_neg h, if_neg h]; exact ih _ _ _ _

theorem canonicalize_body_tr_fst (sep : Char) (buf : List Char) (path : Nat) :
    (canonicalize_body_tr sep buf path).1 = canonicalize_body sep buf path := by
  unfold canonicalize_body_tr canonicalize_body resolve_path split_path
  simp only [split_loop_tr_fst, resolve_loop_tr_fst]
  cases resolve_loop buf _ 0 _ with
  | none => rfl
  | some dirs => simp only [emit_loop_tr_fst]

theorem canonicalize_path_tr_fst (path : List Char) :
    (canonicalize_path_tr path).1 = canonicalize_path path := by
  unfold canonicalize_path_tr canonicalize_path
  by_cases h : peek path 0 = NUL
  · rw [if_pos h, if_pos h]
  · rw [if_neg h, if_neg h]; exact canonicalize_body_tr_fst '/' path 0

theorem count_loop_succ (sep : Char) : ∀ (rest : List Char) (n : Nat),
    count_loop sep rest (n + 1) = count_loop sep rest n + 1 := by
  intro rest
  induction rest with
  | nil => intro n; rfl
  | cons c rest ih =>
    intro n
    rw [count_loop, count_loop]
    by_cases h1 : c = NUL
    · rw [if_pos h1, if_pos h1]
    · rw [if_neg h1, if_neg h1]
      by_cases h2 : c = sep
      · rw [if_pos h2, if_pos h2, ih]
      · rw [if_neg h2, if_neg h2, ih]

theorem le_count_loop (sep : Char) : ∀ (rest : List Char) (n : Nat),
    n ≤ count_loop sep rest n := by
  intro rest
  induction rest with
  | nil => intro n; exact Nat.le_refl _
  | cons c rest ih =>
    intro n
    rw [count_loop]
    by_cases h1 : c = NUL
    · rw [if_pos h1]
    · rw [if_neg h1]
      by_cases h2 : c = sep
      · rw [if_pos h2]; exact Nat.le_trans (Nat.le_succ n) (ih (n + 1))
      · rw [if_neg h2]; exact ih n

theorem in_bounds_mono {n n' lim : Nat} {a : access} (h : in_bounds n lim a) (hn : n ≤ n') :
    in_bounds n' lim a := by
  cases a with
  | table i => exact Nat.lt_of_lt_of_le h hn
  | comp_read dir len k => exact h
  | copy p q => exact h
  | put_sep p q => exact h
  | put_nul p => exact h

theorem split_loop_tr_bound (sep : Char) (lim : Nat) : ∀ (rest : List Char) (p n : Nat)
    (dirs : List dir_component),
    ∀ a ∈ (split_loop_tr sep rest p n dirs).2, in_bounds (count_loop sep rest (n + 1)) lim a := by
  intro rest
  induction rest with
  | nil => intro p n dirs a ha; simp [split_loop_tr] at ha
  | cons c rest ih =>
    intro p n dirs a ha
    rw [split_loop_tr] at ha
    rw [count_loop]
    by_cases h1 : c = NUL
    · rw [if_pos h1] at ha; simp at ha
    · rw [if_neg h1] at ha
      rw [if_neg h1]
      by_cases h2 : c = sep
      · rw [if_pos h2] at ha
        rw [if_pos h2]
        rcases List.mem_cons.mp ha with e | e
        · rw [e]
          exact Nat.lt_of_lt_of_le (Nat.lt_succ_self _) (le_count_loop sep rest (n + 1 + 1))
        · exact ih _ _ _ a e
      · rw [if_neg h2] at ha
        rw [if_neg h2]
        rcases List.mem_cons.mp ha with e | e
        · rw [e]
          exact Nat.lt_of_lt_of_le (Nat.lt_succ_self _) (le_count_loop sep rest (n + 1))
        · exact ih _ _ _ a e

theorem scan_back_tr_bound (dirs : List dir_component) (lim : Nat) : ∀ j : Nat,
    (∀ a ∈ (scan_back_tr dirs j).2, in_bounds j lim a) ∧
    (∀ r, (scan_back_tr dirs j).1 = some r → r < j) := by
  intro j
  induction j with
  | zero => simp [scan_back_tr]
  | succ j ih =>
    rw [scan_back_tr]
    by_cases h : (dirs.getD j default).len > 0
    · rw [if_pos h]
      constructor
      · intro a ha
        simp only [List.mem_singleton] at ha
        rw [ha]; exact Nat.lt_succ_self j
      · intro r hr
        simp only [Option.some.injEq] at hr
        rw [← hr]; exact Nat.lt_succ_self j
    · rw [if_neg h]
      constructor
      · intro a ha
        rcases List.mem_cons.mp ha with e | e
        · rw [e]; exact Nat.lt_succ_self j
        · exact in_bounds_mono (ih.1 a e) (Nat.le_succ j)
      · intro r hr
        exact Nat.lt_succ_of_lt (ih.2 r hr)

theorem getD_extent (dirs : List dir_component) (lim : Nat)
    (h : ∀ d ∈ dirs, d.dir + d.len ≤ lim) (i : Nat) :
    (dirs.getD i default).dir + (dirs.getD i default).len ≤ lim := by
  by_cases hi : i < dirs.length
  · have : dirs.getD i default = dirs[i] := by
      simp [List.getD_eq_getElem?_getD, hi]
    rw [this]
    exact h _ (List.getElem_mem _)
  · have : dirs.getD i default = default := by
      simp [List.getD_eq_getElem?_getD, List.getElem?_eq_none (Nat.le_of_not_lt hi)]
    rw [this]
    exact Nat.zero_le _

theorem set_len_extent (dirs : List dir_component) (lim : Nat)
    (h : ∀ d ∈ dirs, d.dir + d.len ≤ lim) (i : Nat) :
    ∀ d ∈ set_len dirs i 0, d.dir + d.len ≤ lim := by
  intro d hd
  rcases List.mem_or_eq_of_mem_set hd with e | e
  · exact h d e
  · rw [e]
    exact Nat.le_trans (Nat.le_add_right _ _) (getD_extent dirs lim h i)

theorem comp_reads_bound (buf : List Char) (dp : dir_component) (n lim : Nat)
    (hdp : dp.dir + dp.len ≤ lim) :
    ∀ a ∈ comp_reads buf dp, in_bounds n lim a := by
  intro a ha
  unfold comp_reads at ha
  by_cases h1 : dp.len = 1
  · rw [if_pos h1] at ha
    simp only [List.mem_singleton] at ha
    rw [ha]; exact ⟨by rw [h1]; exact Nat.zero_lt_one, hdp⟩
  · rw [if_neg h1] at ha
    by_cases h2 : dp.len = 2
    · rw [if_pos h2] at ha
      by_cases h3 : peek buf dp.dir = '.'
      · rw [if_pos h3] at ha
        simp only [List.mem_cons, List.mem_singleton, List.not_mem_nil, or_false] at ha
        rcases ha with e | e
        · rw [e]; exact ⟨by rw [h2]; exact Nat.zero_lt_two, hdp⟩
        · rw [e]; exact ⟨by rw [h2]; exact Nat.one_lt_two, hdp⟩
      · rw [if_neg h3] at ha
        simp only [List.mem_singleton] at ha
        rw [ha]; exact ⟨by rw [h2]; exact Nat.zero_lt_two, hdp⟩
    · rw [if_neg h2] at ha
      simp at ha

theorem resolve_loop_tr_bound (buf : List Char) (lim : Nat) : ∀ (k i : Nat)
    (dirs : List dir_component), (∀ d ∈ dirs, d.dir + d.len ≤ lim) →
    ∀ a ∈ (resolve_loop_tr buf k i dirs).2, in_bounds (i + k) lim a := by
  intro k
  induction k with
  | zero => intro i dirs _ a ha; simp [resolve_loop_tr] at ha
  | succ k ih =>
    intro i dirs hall a ha
    have hi : in_bounds (i + (k + 1)) lim (access.table i) := by
      show i < i + (k + 1)
      omega
    have hrec : ∀ (d : List dir_component), (∀ x ∈ d, x.dir + x.len ≤ lim) →
        ∀ a ∈ (resolve_loop_tr buf k (i + 1) d).2, in_bounds (i + (k + 1)) lim a := by
      intro d hd a ha
      have := ih (i + 1) d hd a ha
      rwa [show i + 1 + k = i + (k + 1) by omega] at this
    have hset := set_len_extent dirs lim hall i
    have hcr := comp_reads_bound buf (dirs.getD i default) (i + (k + 1)) lim
      (getD_extent dirs lim hall i)
    rw [resolve_loop_tr] at ha
    by_cases h1 : (dirs.getD i default).len = 1 ∧ peek buf (dirs.getD i default).dir = '.'
    · rw [if_pos h1] at ha
      simp only [List.mem_cons, List.mem_append, or_assoc] at ha
      rcases ha with e | e | e | e
      · rw [e]; exact hi
      · exact hcr a e
      · rw [e]; exact hi
      · exact hrec _ hset a e
    · rw [if_neg h1] at ha
      by_cases h2 : (dirs.getD i default).len = 2 ∧ peek buf (dirs.getD i default).dir = '.'
          ∧ peek buf ((dirs.getD i default).dir + 1) = '.'
      · rw [if_pos h2] at ha
        have hsc := scan_back_tr_bound (set_len dirs i 0) lim i
        have hscan : ∀ a ∈ (scan_back_tr (set_len dirs i 0) i).2,
            in_bounds (i + (k + 1)) lim a :=
          fun a ha => in_bounds_mono (hsc.1 a ha) (by omega)
        cases hj : (scan_back_tr (set_len dirs i 0) i).1 with
        | none =>
          rw [hj] at ha
          simp only [List.mem_cons, List.mem_append, or_assoc] at ha
          rcases ha with e | e | e | e
          · rw [e]; exact hi
          · exact hcr a e
          · rw [e]; exact hi
          · exact hscan a e
        | some j =>
          rw [hj] at ha
          simp only [List.mem_cons, List.mem_append, or_assoc] at ha
          rcases ha with e | e | e | e | e | e
          · rw [e]; exact hi
          · exact hcr a e
          · rw [e]; exact hi
          · exact hscan a e
          · rw [e]
            show j < i + (k + 1)
            have := hsc.2 j hj
            omega
          · exact hrec _ (set_len_extent _ lim hset j) a e
      · rw [if_neg h2] at ha
        simp only [List.mem_cons, List.mem_append, or_assoc] at ha
        rcases ha with e | e | e
        · rw [e]; exact hi
        · exact hcr a e
        · exact hrec _ hall a e

theorem copy_loop_tr_bound : ∀ (j q p : Nat) (buf : List Char), p ≤ q →
    (∀ a ∈ (copy_loop_tr j q p buf).2, ∃ w r, a = access.copy w r ∧ w ≤ r ∧ r < q + j) ∧
    (copy_loop_tr j q p buf).1.1 = p + j := by
  intro j
  induction j with
  | zero => intro q p buf _; simp [copy_loop_tr]
  | succ j ih =>
    intro q p buf hpq
    rw [copy_loop_tr]
    obtain ⟨h1, h2⟩ := ih (q + 1) (p + 1) (buf.set p (peek buf q)) (by omega)
    constructor
    · intro a ha
      rcases List.mem_cons.mp ha with e | e
      · exact ⟨p, q, e, hpq, by omega⟩
      · obtain ⟨w, r, e1, e2, e3⟩ := h1 a e
        exact ⟨w, r, e1, e2, by omega⟩
    · simp only [h2]; omega

theorem emit_loop_tr_bound (sep : Char) (lim : Nat) :
    ∀ (M : List (List Char × Bool)) (P : List dir_component) (buf : List Char)
      (first_dir : Bool) (p o : Nat),
      p + (if first_dir then 0 else 1) ≤ o → o + span M ≤ lim + 1 →
      (∀ a ∈ (emit_loop_tr sep (P ++ layout_marked o M) M.length P.length p first_dir buf).2,
          in_bounds (P.length + M.length) lim a ∧ behind_read a) ∧
      ((emit_loop_tr sep (P ++ layout_marked o M) M.length P.length p first_dir buf).1.1 = p ∨
        (emit_loop_tr sep (P ++ layout_marked o M) M.length P.length p first_dir buf).1.1
          ≤ lim) := by
  intro M
  induction M with
  | nil =>
    intro P buf first_dir p o _ _
    simp [emit_loop_tr]
  | cons x M ih =>
    intro P buf first_dir p o hpo hlim
    obtain ⟨c, b⟩ := x
    have hget : (P ++ layout_marked o ((c, b) :: M)).getD P.length default
        = ⟨o, if b then c.length else 0⟩ := by
      rw [layout_marked]
      exact getD_append_length P _ _ default
    have hdirs : P ++ layout_marked o ((c, b) :: M)
        = (P ++ [⟨o, if b then c.length else 0⟩]) ++ layout_marked (o + c.length + 1) M := by
      rw [layout_marked]; simp
    have hidx : in_bounds (P.length + ((c, b) :: M).length) lim (access.table P.length)
        ∧ behind_read (access.table P.length) := by
      refine ⟨?_, trivial⟩
      show P.length < P.length + ((c, b) :: M).length
      simp
    have hPM : P.length + 1 + M.length = P.length + ((c, b) :: M).length := by
      simp; omega
    have hPl : (P ++ [(⟨o, if b then c.length else 0⟩ : dir_component)]).length
        = P.length + 1 := by simp
    simp only [span] at hlim
    rw [List.length_cons, emit_loop_tr]
    simp only [hget]
    rw [hdirs]
    by_cases hpos : 0 < (if b = true then c.length else 0)
    · have hlen : (if b = true then c.length else 0) = c.length := by
        by_cases hb : b = true
        · simp [hb]
        · simp [hb] at hpos
      rw [hlen] at hpos
      simp only [hlen, gt_iff_lt, hpos, if_true]
      cases first_dir with
      | true =>
        simp only [if_true, Nat.add_zero] at hpo ⊢
        obtain ⟨hc1, hc2⟩ := copy_loop_tr_bound c.length o p buf hpo
        obtain ⟨h1, h2⟩ := ih (P ++ [⟨o, c.length⟩])
          (copy_loop_tr c.length o p buf).1.2 false
          (copy_loop_tr c.length o p buf).1.1 (o + c.length + 1)
          (by rw [hc2]; simp; omega) (by omega)
        rw [hlen] at hPl
        rw [hPl] at h1 h2
        constructor
        · intro a ha
          simp only [List.mem_cons, List.mem_append, or_assoc, List.not_mem_nil, false_or] at ha
          rcases ha with e | e | e
          · rw [e]; exact hidx
          · obtain ⟨w, r, e1, e2, e3⟩ := hc1 a e
            rw [e1]
            exact ⟨⟨show w ≤ lim by omega, show r < lim by omega⟩, e2⟩
          · have := h1 a e
            rw [hPM] at this
            exact this
        · right
          rcases h2 with e | e
          · rw [e, hc2]; omega
          · exact e
      | false =>
        simp only [Bool.false_eq_true, if_false] at hpo ⊢
        obtain ⟨hc1, hc2⟩ := copy_loop_tr_bound c.length o (p + 1) (buf.set p sep) hpo
        obtain ⟨h1, h2⟩ := ih (P ++ [⟨o, c.length⟩])
          (copy_loop_tr c.length o (p + 1) (buf.set p sep)).1.2 false
          (copy_loop_tr c.length o (p + 1) (buf.set p sep)).1.1 (o + c.length + 1)
          (by rw [hc2]; simp; omega) (by omega)
        rw [hlen] at hPl
        rw [hPl] at h1 h2
        constructor
        · intro a ha
          simp only [List.mem_cons, List.mem_append, or_assoc, List.not_mem_nil, or_false] at ha
          rcases ha with e | e | e | e
          · rw [e]; exact hidx
          · rw [e]
            exact ⟨show p ≤ lim by omega, show p < o by omega⟩
          · obtain ⟨w, r, e1, e2, e3⟩ := hc1 a e
            rw [e1]
            exact ⟨⟨show w ≤ lim by omega, show r < lim by omega⟩, e2⟩
          · have := h1 a e
            rw [hPM] at this
            exact this
        · right
          rcases h2 with e | e
          · rw [e, hc2]; omega
          · exact e
    · have hzero : (if b = true then c.length else 0) = 0 := by omega
      simp only [hzero, gt_iff_lt, Nat.lt_irrefl, if_false]
      obtain ⟨h1, h2⟩ := ih (P ++ [⟨o, 0⟩]) buf first_dir p (o + c.length + 1)
        (by omega) (by omega)
      rw [hzero] at hPl
      rw [hPl] at h1 h2
      constructor
      · intro a ha
        rcases List.mem_cons.mp ha with e | e
        · rw [e]; exact hidx
        · have := h1 a e
          rw [hPM] at this
          exact this
      · exact h2

theorem span_split_on (sep : Char) : ∀ (s : List Char) (M : List (List Char × Bool)),
    M.map Prod.fst = split_on sep s → span M = s.length + 1 := by
  intro s
  induction s with
  | nil =>
    intro M hM
    simp only [split_on] at hM
    cases M with
    | nil => simp at hM
    | cons x M =>
      simp only [List.map_cons, List.cons.injEq, List.map_eq_nil_iff] at hM
      obtain ⟨h1, h2⟩ := hM
      subst h2
      simp [span, h1]
  | cons c cs ih =>
    intro M hM
    cases M with
    | nil => exact absurd hM.symm (split_on_ne_nil sep _)
    | cons x M =>
      by_cases h : c = sep
      · subst h
        rw [split_on_cons_sep] at hM
        simp only [List.map_cons, List.cons.injEq] at hM
        have := ih M hM.2
        simp [span, hM.1, this]
        omega
      · obtain ⟨hd, tl, h1, h2⟩ := split_on_cons_ne h cs
        rw [h2] at hM
        simp only [List.map_cons, List.cons.injEq] at hM
        have := ih ((hd, true) :: M) (by simp [h1, hM.2])
        simp only [span] at this ⊢
        rw [hM.1]
        simp only [List.length_cons]
        omega

theorem layout_extent : ∀ (M : List (List Char × Bool)) (o : Nat),
    ∀ d ∈ layout_marked o M, d.dir + d.len + 1 ≤ o + span M := by
  intro M
  induction M with
  | nil => intro o d hd; simp [layout_marked] at hd
  | cons x M ih =>
    intro o d hd
    rw [layout_marked] at hd
    simp only [span]
    rcases List.mem_cons.mp hd with e | e
    · rw [e]
      simp only []
      split <;> omega
    · have := ih _ d e
      omega

/-- Under the length bound every `int` of the source stays in range: the number of
allocated entries, `n_dirs`, and the `dir` offset and `len` of every table entry are
below `2 ^ 31`. -/
theorem int_counters_fit (sep : Char) (s : List Char) (hs : NUL ∉ s) (hsep : sep ≠ NUL)
    (hlen : s.length + 1 < 2 ^ 31) :
    count_loop sep (s ++ [NUL]) 1 < 2 ^ 31 ∧
    (split_path sep (s ++ [NUL]) 0).1 < 2 ^ 31 ∧
    ∀ d ∈ (split_path sep (s ++ [NUL]) 0).2, d.dir + d.len < 2 ^ 31 := by
  have hsp := split_path_eq sep [] s [] hs hsep
  simp only [List.nil_append, List.length_nil] at hsp
  have hc : s.count sep ≤ s.length := List.count_le_length sep s
  refine ⟨?_, ?_, ?_⟩
  · rw [count_loop_eq sep [] s hs 1]; omega
  · rw [hsp]
    simp only [split_on_length]; omega
  · intro d hd
    rw [hsp] at hd
    have h1 := layout_extent _ 0 d hd
    have h2 := span_split_on sep s ((split_on sep s).map (fun c => (c, true)))
      (by simp [List.map_map, Function.comp_def])
    omega

theorem peek_of_take (src : List Char) (q : Nat) (a : Char) (w : List Char)
    (h : (src.drop q).take (a :: w).length = a :: w) :
    peek src q = a ∧ (src.drop (q + 1)).take w.length = w := by
  have hp := peek_add src q 0
  rw [Nat.add_zero] at hp
  cases hd : src.drop q with
  | nil => rw [hd] at h; simp at h
  | cons y ys =>
    rw [hd] at h hp
    simp only [List.length_cons, List.take_succ_cons, List.cons.injEq] at h
    have hdrop : src.drop (q + 1) = ys := by
      have : src.drop (q + 1) = (src.drop q).drop 1 := by
        rw [List.drop_drop]
      rw [this, hd]; rfl
    rw [hdrop]
    refine ⟨?_, h.2⟩
    rw [hp]; simpa using h.1

theorem copy_loop_fresh_eq (src : List Char) : ∀ (w : List Char) (q : Nat) (Fd Y : List Char),
    (src.drop q).take w.length = w → w.length ≤ Y.length →
    copy_loop_fresh src w.length q Fd.length (Fd ++ Y)
      = (Fd.length + w.length, Fd ++ w ++ Y.drop w.length) := by
  intro w
  induction w with
  | nil => intro q Fd Y _ _; simp [copy_loop_fresh]
  | cons a w ih =>
    intro q Fd Y h hY
    obtain ⟨hpk, hrest⟩ := peek_of_take src q a w h
    obtain ⟨y, Y', rfl⟩ : ∃ y Y', Y = y :: Y' := by
      cases Y with
      | nil => simp at hY
      | cons y Y' => exact ⟨y, Y', rfl⟩
    rw [List.length_cons, copy_loop_fresh, hpk, set_append_length]
    have := ih (q + 1) (Fd ++ [a]) Y' hrest (by simpa using hY)
    simp only [List.length_append, List.length_singleton, List.append_assoc,
      List.singleton_append] at this
    rw [this]
    simp
    omega

theorem emit_loop_fresh_eq (sep : Char) (src : List Char) :
    ∀ (M : List (List Char × Bool)) (P : List dir_component) (Fd Y : List Char)
      (first_dir : Bool) (o : Nat),
      stored src o (M.map Prod.fst) → (render sep first_dir (survivors M)).length ≤ Y.length →
      emit_loop_fresh sep (P ++ layout_marked o M) src M.length P.length Fd.length first_dir
          (Fd ++ Y)
        = (Fd.length + (render sep first_dir (survivors M)).length,
            Fd ++ render sep first_dir (survivors M)
              ++ Y.drop (render sep first_dir (survivors M)).length) := by
  intro M
  induction M with
  | nil =>
    intro P Fd Y first_dir o _ _
    cases first_dir <;> simp [emit_loop_fresh, render, survivors, join_with, tail_str]
  | cons x M ih =>
    intro P Fd Y first_dir o hst hY
    obtain ⟨c, b⟩ := x
    obtain ⟨htxt, hst'⟩ := hst
    simp only at htxt
    have hget : (P ++ layout_marked o ((c, b) :: M)).getD P.length default
        = ⟨o, if b then c.length else 0⟩ := by
      rw [layout_marked]
      exact getD_append_length P _ _ default
    have hdirs : P ++ layout_marked o ((c, b) :: M)
        = (P ++ [⟨o, if b then c.length else 0⟩]) ++ layout_marked (o + c.length + 1) M := by
      rw [layout_marked]; simp
    have hPl : (P ++ [(⟨o, if b then c.length else 0⟩ : dir_component)]).length
        = P.length + 1 := by simp
    rw [List.length_cons, emit_loop_fresh]
    simp only [hget]
    rw [hdirs, ← hPl]
    by_cases hlive : b = true ∧ c ≠ []
    · obtain ⟨hb, hc⟩ := hlive
      subst hb
      have hpos : 0 < c.length := List.length_pos.mpr hc
      simp only [if_true, hpos, gt_iff_lt]
      rw [survivors_cons_live c M hc] at hY ⊢
      cases first_dir with
      | true =>
        simp only [if_true]
        have hr : render sep true (c :: survivors M) = c ++ render sep false (survivors M) := by
          simp [render, join_with_cons]
        rw [hr, List.length_append] at hY
        rw [copy_loop_fresh_eq src c o Fd Y htxt (by omega)]
        simp only []
        have := ih (P ++ [⟨o, c.length⟩]) (Fd ++ c) (Y.drop c.length) false (o + c.length + 1)
          hst' (by simp; omega)
        rw [show Fd.length + c.length = (Fd ++ c).length by simp, this, hr]
        simp [List.drop_drop]
        omega
      | false =>
        simp only [Bool.false_eq_true, if_false]
        have hr : render sep false (c :: survivors M)
            = sep :: c ++ render sep false (survivors M) := by
          simp [render, tail_str]
        rw [hr] at hY
        simp only [List.cons_append, List.length_cons, List.length_append] at hY
        obtain ⟨y, Y', rfl⟩ : ∃ y Y', Y = y :: Y' := by
          cases Y with
          | nil => simp at hY
          | cons y Y' => exact ⟨y, Y', rfl⟩
        simp only [List.length_cons] at hY
        rw [set_append_length]
        have hcp := copy_loop_fresh_eq src c o (Fd ++ [sep]) Y' htxt (by omega)
        simp only [List.length_append, List.length_singleton, List.append_assoc,
          List.singleton_append] at hcp
        rw [hcp]
        simp only []
        have := ih (P ++ [⟨o, c.length⟩]) (Fd ++ sep :: c) (Y'.drop c.length) false
          (o + c.length + 1) hst' (by simp; omega)
        rw [show Fd.length + 1 + c.length = (Fd ++ sep :: c).length by simp; omega,
          show Fd ++ (sep :: c ++ List.drop c.length Y')
            = (Fd ++ sep :: c) ++ List.drop c.length Y' by simp, this, hr]
        simp [List.drop_drop]
        omega
    · have hzero : (if b = true then c.length else 0) = 0 := by
        by_cases hb : b = true
        · have : c = [] := by
            by_contra hne; exact hlive ⟨hb, hne⟩
          simp [this]
        · simp [hb]
      simp only [hzero, gt_iff_lt, Nat.lt_irrefl, if_false]
      rw [survivors_cons_dead c b M hlive] at hY ⊢
      exact ih (P ++ [⟨o, 0⟩]) Fd Y first_dir (o + c.length + 1) hst' hY

theorem resolve_path_layout (sep : Char) (s : List Char) (hs : NUL ∉ s) (hsep : sep ≠ NUL)
    (dirs : List dir_component) (h : resolve_path sep (s ++ [NUL]) 0 = some dirs) :
    ∃ M st, dirs = layout_marked 0 M ∧ M.map Prod.fst = split_on sep s ∧ survivors M = st
      ∧ walk [] (split_on sep s) = some st := by
  have hr := resolve_path_eq sep [] s [] hs hsep
  simp only [List.nil_append, List.length_nil] at hr
  cases hw : walk [] (split_on sep s) with
  | none => rw [hr.1 hw] at h; simp at h
  | some st =>
    obtain ⟨M, hM, hfst, hsv⟩ := hr.2 st hw
    rw [hM] at h
    simp only [Option.some.injEq] at h
    exact ⟨M, st, h.symm, hfst, hsv, rfl⟩

theorem split_path_fst (sep : Char) (s : List Char) (hs : NUL ∉ s) (hsep : sep ≠ NUL) :
    (split_path sep (s ++ [NUL]) 0).1 = (split_on sep s).length := by
  have := split_path_eq sep [] s [] hs hsep
  simp only [List.nil_append, List.length_nil] at this
  rw [this]

theorem emit_loop_tr_top (sep : Char) (s : List Char) (M : List (List Char × Bool))
    (hM : M.map Prod.fst = split_on sep s) (buf : List Char) :
    (∀ a ∈ (emit_loop_tr sep (layout_marked 0 M) M.length 0
          (if s.head? = some sep then 1 else 0) true buf).2,
        in_bounds M.length s.length a ∧ behind_read a) ∧
    (emit_loop_tr sep (layout_marked 0 M) M.length 0
        (if s.head? = some sep then 1 else 0) true buf).1.1 ≤ s.length := by
  have hspan := span_split_on sep s M hM
  by_cases habs : s.head? = some sep
  · rw [if_pos habs]
    obtain ⟨s', rfl⟩ : ∃ s', s = sep :: s' := by
      cases s with
      | nil => simp at habs
      | cons c cs => simp at habs; exact ⟨cs, by rw [habs]⟩
    rw [split_on_cons_sep] at hM
    obtain ⟨x, M', rfl⟩ : ∃ x M', M = x :: M' := by
      cases M with
      | nil => simp at hM
      | cons x M' => exact ⟨x, M', rfl⟩
    obtain ⟨c0, b0⟩ := x
    simp only [List.map_cons, List.cons.injEq] at hM
    obtain ⟨hc0, _⟩ := hM
    subst hc0
    simp only [span, List.length_nil, List.length_cons] at hspan
    have hd0 : (if b0 = true then ([] : List Char).length else 0) = 0 := by
      cases b0 <;> rfl
    have hstep : emit_loop_tr sep (layout_marked 0 (([], b0) :: M')) (([], b0) :: M').length
          0 1 true buf
        = ((emit_loop_tr sep ([⟨0, 0⟩] ++ layout_marked (0 + 0 + 1) M') M'.length
              [(⟨0, 0⟩ : dir_component)].length 1 true buf).1,
            access.table 0 :: (emit_loop_tr sep ([⟨0, 0⟩] ++ layout_marked (0 + 0 + 1) M')
              M'.length [(⟨0, 0⟩ : dir_component)].length 1 true buf).2) := by
      rw [List.length_cons, emit_loop_tr]
      simp [layout_marked]
    obtain ⟨h1, h2⟩ := emit_loop_tr_bound sep (s'.length + 1) M' [⟨0, 0⟩] buf true 1
      (0 + 0 + 1) (by simp) (by omega)
    rw [hstep]
    simp only [List.length_cons, List.length_nil, Nat.zero_add] at h1 h2 ⊢
    constructor
    · intro a ha
      rcases List.mem_cons.mp ha with e | e
      · rw [e]
        exact ⟨show 0 < M'.length + 1 by omega, trivial⟩
      · have := h1 a e
        rw [show 1 + M'.length = M'.length + 1 by omega] at this
        exact this
    · rcases h2 with e | e
      · rw [e]; omega
      · exact e
  · rw [if_neg habs]
    obtain ⟨h1, h2⟩ := emit_loop_tr_bound sep s.length M [] buf true 0 0 (by simp) (by omega)
    simp only [List.nil_append, List.length_nil, Nat.zero_add] at h1 h2
    refine ⟨h1, ?_⟩
    rcases h2 with e | e
    · rw [e]; omega
    · exact e

theorem reconstruct_fresh_eq (sep : Char) (s : List Char)
    (M : List (List Char × Bool)) (hM : M.map Prod.fst = split_on sep s) (dst : List Char)
    (hdst : dst.length = s.length + 1)
    (hlen : (lead sep s ++ join_with sep (survivors M)).length ≤ s.length) (hsep : sep ≠ NUL)
    (hs : NUL ∉ s) :
    ∃ Z, reconstruct_fresh sep (layout_marked 0 M) M.length (s ++ [NUL]) 0 dst
      = lead sep s ++ join_with sep (survivors M) ++ NUL :: Z := by
  have hpk := peek_path sep [] s [] hs hsep
  simp only [List.nil_append, List.length_nil] at hpk
  have hst : stored (s ++ [NUL]) 0 (split_on sep s) := by
    have := stored_of_laid (split_on sep s) [] (s ++ [NUL]) (laid_split_on sep [] NUL s)
    simpa using this
  unfold reconstruct_fresh
  by_cases habs : s.head? = some sep
  · simp only [if_pos (hpk.mpr habs)]
    obtain ⟨s', rfl⟩ : ∃ s', s = sep :: s' := by
      cases s with
      | nil => simp at habs
      | cons c cs => simp at habs; exact ⟨cs, by rw [habs]⟩
    rw [split_on_cons_sep] at hM hst
    obtain ⟨x, M', rfl⟩ : ∃ x M', M = x :: M' := by
      cases M with
      | nil => simp at hM
      | cons x M' => exact ⟨x, M', rfl⟩
    obtain ⟨c0, b0⟩ := x
    simp only [List.map_cons, List.cons.injEq] at hM
    obtain ⟨hc0, hM'⟩ := hM
    subst hc0
    obtain ⟨y, Y, rfl⟩ : ∃ y Y, dst = y :: Y := by
      cases dst with
      | nil => simp at hdst
      | cons y Y => exact ⟨y, Y, rfl⟩
    simp only [List.length_cons, Nat.add_right_cancel_iff] at hdst
    have hsv : survivors (([], b0) :: M') = survivors M' :=
      survivors_cons_dead [] b0 M' (by simp)
    rw [hsv] at hlen ⊢
    have hl : lead sep (sep :: s') = [sep] := by simp [lead]
    rw [hl] at hlen ⊢
    simp only [List.singleton_append, List.length_cons] at hlen
    have hst' : stored (sep :: s' ++ [NUL]) (0 + 0 + 1) (M'.map Prod.fst) := by
      rw [hM']; exact hst.2
    have hstep : emit_loop_fresh sep (layout_marked 0 (([], b0) :: M')) (sep :: s' ++ [NUL])
          (([], b0) :: M').length 0 (0 + 1) true ((y :: Y).set 0 sep)
        = emit_loop_fresh sep ([⟨0, 0⟩] ++ layout_marked (0 + 0 + 1) M') (sep :: s' ++ [NUL])
            M'.length [(⟨0, 0⟩ : dir_component)].length [sep].length true ([sep] ++ Y) := by
      rw [List.length_cons, emit_loop_fresh]
      simp [layout_marked]
    have hem := emit_loop_fresh_eq sep (sep :: s' ++ [NUL]) M' [⟨0, 0⟩] [sep] Y true (0 + 0 + 1)
      hst' (by simp only [render, if_true]; omega)
    rw [hstep, hem]
    simp only [render, if_true, List.length_singleton]
    have hdrop : Y.drop (join_with sep (survivors M')).length ≠ [] := by
      intro e
      have := congrArg List.length e
      simp at this
      omega
    obtain ⟨z, Z, hz⟩ : ∃ z Z, Y.drop (join_with sep (survivors M')).length = z :: Z := by
      cases hd : Y.drop (join_with sep (survivors M')).length with
      | nil => exact absurd hd hdrop
      | cons z Z => exact ⟨z, Z, rfl⟩
    refine ⟨Z, ?_⟩
    rw [hz]
    have := set_append_length ([sep] ++ join_with sep (survivors M')) z NUL Z
    simp only [List.length_append, List.length_singleton] at this
    simpa using this
  · simp only [if_neg (fun h => habs (hpk.mp h))]
    have hl : lead sep s = [] := by simp [lead, habs]
    rw [hl] at hlen ⊢
    simp only [List.nil_append] at hlen ⊢
    have hst' : stored (s ++ [NUL]) 0 (M.map Prod.fst) := by
      rw [hM]; exact hst
    have hem := emit_loop_fresh_eq sep (s ++ [NUL]) M [] [] dst true 0 hst'
      (by simp only [render, if_true]; omega)
    simp only [List.nil_append, List.length_nil, Nat.zero_add] at hem
    rw [hem]
    simp only [render, if_true]
    have hdrop : dst.drop (join_with sep (survivors M)).length ≠ [] := by
      intro e
      have := congrArg List.length e
      simp at this
      omega
    obtain ⟨z, Z, hz⟩ : ∃ z Z, dst.drop (join_with sep (survivors M)).length = z :: Z := by
      cases hd : dst.drop (join_with sep (survivors M)).length with
      | nil => exact absurd hd hdrop
      | cons z Z => exact ⟨z, Z, rfl⟩
    refine ⟨Z, ?_⟩
    rw [hz]
    exact set_append_length (join_with sep (survivors M)) z NUL Z

theorem canonicalize_body_some (sep : Char) (buf : List Char) (path : Nat)
    (dirs : List dir_component) (h : resolve_path sep buf path = some dirs) :
    canonicalize_body sep buf path
      = ⟨true, reconstruct sep dirs (split_path sep buf path).1 buf path⟩ := by
  simp only [canonicalize_body, h, reconstruct]

theorem canonicalize_body_tr_snd (sep : Char) (buf : List Char) (path : Nat) :
    (canonicalize_body_tr sep buf path).2
      = match resolve_path sep buf path with
        | none =>
          access.table 0 ::
            (split_loop_tr sep (buf.drop path) path 0
              ((List.replicate (count_loop sep (buf.drop path) 1)
                (default : dir_component)).set 0 ⟨path, 0⟩)).2
            ++ (resolve_loop_tr buf (split_path sep buf path).1 0 (split_path sep buf path).2).2
        | some dirs =>
          access.table 0 ::
            (split_loop_tr sep (buf.drop path) path 0
              ((List.replicate (count_loop sep (buf.drop path) 1)
                (default : dir_component)).set 0 ⟨path, 0⟩)).2
            ++ (resolve_loop_tr buf (split_path sep buf path).1 0 (split_path sep buf path).2).2
            ++ (emit_loop_tr sep dirs (split_path sep buf path).1 0
                (if peek buf path = sep then path + 1 else path) true buf).2
            ++ [access.put_nul (emit_loop_tr sep dirs (split_path sep buf path).1 0
                (if peek buf path = sep then path + 1 else path) true buf).1.1] := by
  unfold canonicalize_body_tr resolve_path split_path
  simp only [split_loop_tr_fst, ← resolve_loop_tr_fst]
  cases (resolve_loop_tr buf _ 0 _).1 with
  | none => rfl
  | some dirs => rfl

/-! Main theorems -/

/-- C1: for every non-empty path `p` short enough for the `int` counters of the source
(`p.length + 1 < 2 ^ 31`), `canonicalize_path` returns `NULL` exactly when the
stack walk over the components of `p` fails, and otherwise leaves in the buffer the names
on the stack joined by single `/`, preceded by one `/` exactly when `p` begins with `/`. -/
theorem canonicalize_path_agrees_with_stack_reference (p : List Char) (hne : p ≠ [])
    (hp : NUL ∉ p) (hlen : p.length + 1 < 2 ^ 31) :
    (run_path p = none ↔ walk [] (split_on '/' p) = none) ∧
    (∀ stack, walk [] (split_on '/' p) = some stack →
      run_path p = some ((if p.head? = some '/' then ['/'] else []) ++ join_with '/' stack)) := by
  have _hfit := int_counters_fit '/' p hp slash_ne_NUL hlen
  rw [run_path_eq p hp, if_neg hne]
  constructor
  · simp [reference]
  · intro stack h
    simp [reference, h, lead]

theorem canonicalize_path_agrees_with_stack_reference_witness :
    ['a', '/', 'x', '/', '.', '.', '/', 'b'] ≠ [] ∧ NUL ∉ ['a', '/', 'x', '/', '.', '.', '/', 'b'] ∧
    ['a', '/', 'x', '/', '.', '.', '/', 'b'].length + 1 < 2 ^ 31 ∧
    ((run_path ['a', '/', 'x', '/', '.', '.', '/', 'b'] = none ↔
        walk [] (split_on '/' ['a', '/', 'x', '/', '.', '.', '/', 'b']) = none) ∧
      (∀ stack, walk [] (split_on '/' ['a', '/', 'x', '/', '.', '.', '/', 'b']) = some stack →
        run_path ['a', '/', 'x', '/', '.', '.', '/', 'b']
          = some ((if ['a', '/', 'x', '/', '.', '.', '/', 'b'].head? = some '/' then ['/'] else [])
              ++ join_with '/' stack))) :=
  ⟨by decide, by decide, by decide,
    canonicalize_path_agrees_with_stack_reference ['a', '/', 'x', '/', '.', '.', '/', 'b']
      (by decide) (by decide) (by decide)⟩

/-- C2: on a path short enough for the `int` counters of the source
(`p.length + 1 < 2 ^ 31`), `canonicalize_path` returns `NULL` if and only if the path is
empty or some initial part of its component sequence holds more `..` components than
ordinary components. -/
theorem canonicalize_path_null_iff (p : List Char) (hp : NUL ∉ p)
    (hlen : p.length + 1 < 2 ^ 31) :
    run_path p = none ↔
      p = [] ∨ ∃ k, ((split_on '/' p).take k).countP is_name
                      < ((split_on '/' p).take k).countP is_dotdot := by
  have _hfit := int_counters_fit '/' p hp slash_ne_NUL hlen
  rw [run_path_eq p hp]
  by_cases h : p = []
  · simp [h]
  · rw [if_neg h]
    have := walk_none_iff (split_on '/' p) []
    simp only [List.length_nil, Nat.zero_add] at this
    simp [reference, this, h]

theorem canonicalize_path_null_iff_witness :
    NUL ∉ ['a', '/', '.', '.', '/', '.', '.'] ∧ ['a', '/', '.', '.', '/', '.', '.'].length + 1 < 2 ^ 31 ∧
    (run_path ['a', '/', '.', '.', '/', '.', '.'] = none ↔
      ['a', '/', '.', '.', '/', '.', '.'] = [] ∨
        ∃ k, ((split_on '/' ['a', '/', '.', '.', '/', '.', '.']).take k).countP is_name
              < ((split_on '/' ['a', '/', '.', '.', '/', '.', '.']).take k).countP is_dotdot) :=
  ⟨by decide, by decide,
    canonicalize_path_null_iff ['a', '/', '.', '.', '/', '.', '.'] (by decide) (by decide)⟩

/-- C3 fails as stated: `canonicalize_path` succeeds on `./` with the empty string as
result, and on the empty string it returns `NULL`. -/
theorem canonicalize_path_not_idempotent_on_empty_result :
    run_path ['.', '/'] = some [] ∧ run_path [] = none := by
  decide

/-- C3 (amended): when `canonicalize_path` succeeds on `p` (short enough for the `int`
counters of the source, `p.length + 1 < 2 ^ 31`) with a non-empty result `r`,
it succeeds on `r` and returns exactly `r`. -/
theorem canonicalize_path_idempotent (p r : List Char) (hp : NUL ∉ p)
    (hlen : p.length + 1 < 2 ^ 31)
    (h : run_path p = some r) (hr : r ≠ []) : run_path r = some r := by
  have _hfit := int_counters_fit '/' p hp slash_ne_NUL hlen
  have hpne : p ≠ [] := by
    intro e; simp [e, run_path_eq] at h
  rw [run_path_eq p hp, if_neg hpne] at h
  have hrn : NUL ∉ r := not_mem_reference '/' p r h NUL hp slash_ne_NUL
  rw [run_path_eq r hrn, if_neg hr]
  exact reference_idem '/' p r h hr

theorem canonicalize_path_idempotent_witness :
    NUL ∉ ['a', '/', '/', 'b', '/', '.', '.'] ∧ ['a', '/', '/', 'b', '/', '.', '.'].length + 1 < 2 ^ 31 ∧
    run_path ['a', '/', '/', 'b', '/', '.', '.'] = some ['a'] ∧ ['a'] ≠ [] ∧
    run_path ['a'] = some ['a'] :=
  ⟨by decide, by decide, by decide, by decide,
    canonicalize_path_idempotent ['a', '/', '/', 'b', '/', '.', '.'] ['a'] (by decide)
      (by decide) (by decide) (by decide)⟩

/-- C4: the volume variant is idempotent: when `canonicalize_efi_path` succeeds on `x`
(short enough for the `int` counters of the source, `x.length + 1 < 2 ^ 31`) with
result `r`, it succeeds on `r` and returns exactly `r`. -/
theorem canonicalize_efi_path_idempotent (x r : List Char) (hx : NUL ∉ x)
    (hlen : x.length + 1 < 2 ^ 31)
    (h : run_efi x = some r) : run_efi r = some r := by
  have _hfit := int_counters_fit '\\' x hx backslash_ne_NUL hlen
  by_cases hc : ':' ∈ x
  · obtain ⟨v, hv, hxv⟩ := split_at_colon x hc
    generalize after_colon x = t at hxv
    subst hxv
    have hvn : NUL ∉ v := fun e => hx (by simp [e])
    have htn : NUL ∉ t := fun e => hx (by simp [e])
    rw [run_efi_colon v t hvn htn hv] at h
    by_cases ht : t = []
    · rw [if_pos ht] at h
      simp only [Option.some.injEq] at h
      subst h
      have := run_efi_colon v [] hvn (by simp) hv
      simpa using this
    · rw [if_neg ht] at h
      cases href : reference '\\' t with
      | none => simp [href] at h
      | some c =>
        simp only [href, Option.map_some', Option.some.injEq] at h
        subst h
        have hcn : NUL ∉ c := not_mem_reference '\\' t c href NUL htn backslash_ne_NUL
        rw [run_efi_colon v c hvn hcn hv]
        by_cases hce : c = []
        · simp [hce]
        · rw [if_neg hce, reference_idem '\\' t c href hce]
          rfl
  · rw [run_efi_no_colon x hx hc] at h
    by_cases hxe : x = []
    · rw [if_pos hxe] at h
      simp only [Option.some.injEq] at h
      subst h
      simp [run_efi_no_colon]
    · rw [if_neg hxe] at h
      have hrn : NUL ∉ r := not_mem_reference '\\' x r h NUL hx backslash_ne_NUL
      have hrc : ':' ∉ r := not_mem_reference '\\' x r h ':' hc (by decide)
      rw [run_efi_no_colon r hrn hrc]
      by_cases hre : r = []
      · simp [hre]
      · rw [if_neg hre]
        exact reference_idem '\\' x r h hre

theorem canonicalize_efi_path_idempotent_witness :
    NUL ∉ ['c', ':', '.', '\\', 'a', '\\', '\\', 'b'] ∧
    ['c', ':', '.', '\\', 'a', '\\', '\\', 'b'].length + 1 < 2 ^ 31 ∧
    run_efi ['c', ':', '.', '\\', 'a', '\\', '\\', 'b'] = some ['c', ':', 'a', '\\', 'b'] ∧
    run_efi ['c', ':', 'a', '\\', 'b'] = some ['c', ':', 'a', '\\', 'b'] :=
  ⟨by decide, by decide, by decide,
    canonicalize_efi_path_idempotent ['c', ':', '.', '\\', 'a', '\\', '\\', 'b']
      ['c', ':', 'a', '\\', 'b'] (by decide) (by decide) (by decide)⟩

/-- C5: when `canonicalize_path` succeeds on a path short enough for the `int` counters of
the source (`p.length + 1 < 2 ^ 31`), the resulting string is no longer than the input. -/
theorem canonicalize_path_length_le (p r : List Char) (hp : NUL ∉ p)
    (hlen : p.length + 1 < 2 ^ 31)
    (h : run_path p = some r) : r.length ≤ p.length := by
  have _hfit := int_counters_fit '/' p hp slash_ne_NUL hlen
  have hpne : p ≠ [] := by
    intro e; simp [e, run_path_eq] at h
  rw [run_path_eq p hp, if_neg hpne] at h
  exact reference_length '/' p r hp slash_ne_NUL h

theorem canonicalize_path_length_le_witness :
    NUL ∉ ['a', '/', '/', 'b', '/', '.', '.'] ∧ ['a', '/', '/', 'b', '/', '.', '.'].length + 1 < 2 ^ 31 ∧
    run_path ['a', '/', '/', 'b', '/', '.', '.'] = some ['a'] ∧
    ['a'].length ≤ ['a', '/', '/', 'b', '/', '.', '.'].length :=
  ⟨by decide, by decide, by decide,
    canonicalize_path_length_le ['a', '/', '/', 'b', '/', '.', '.'] ['a'] (by decide) (by decide)
      (by decide)⟩

/-- C6: a doubled separator behaves as a single one: `canonicalize_path` has the same
outcome on `a ++ "//" ++ b` and on `a ++ "/" ++ b`, both short enough for the `int`
counters of the source (the longer one has `length + 1 < 2 ^ 31`). -/
theorem canonicalize_path_separator_collapse (a b : List Char) (ha : NUL ∉ a) (hb : NUL ∉ b)
    (hlen : (a ++ ['/', '/'] ++ b).length + 1 < 2 ^ 31) :
    run_path (a ++ ['/', '/'] ++ b) = run_path (a ++ ['/'] ++ b) := by
  have h1 : NUL ∉ a ++ ['/', '/'] ++ b := by
    simp [ha, hb]; decide
  have _hfit := int_counters_fit '/' _ h1 slash_ne_NUL hlen
  have h2 : NUL ∉ a ++ ['/'] ++ b := by
    simp [ha, hb]; decide
  rw [run_path_eq _ h1, run_path_eq _ h2, if_neg (by simp), if_neg (by simp)]
  simpa using reference_collapse '/' a b

theorem canonicalize_path_separator_collapse_witness :
    NUL ∉ ['a', '/', '.'] ∧ NUL ∉ ['.', '.', '/', 'b'] ∧
    (['a', '/', '.'] ++ ['/', '/'] ++ ['.', '.', '/', 'b']).length + 1 < 2 ^ 31 ∧
    run_path (['a', '/', '.'] ++ ['/', '/'] ++ ['.', '.', '/', 'b'])
      = run_path (['a', '/', '.'] ++ ['/'] ++ ['.', '.', '/', 'b']) :=
  ⟨by decide, by decide, by decide,
    canonicalize_path_separator_collapse ['a', '/', '.'] ['.', '.', '/', 'b']
      (by decide) (by decide) (by decide)⟩

/-- C7: when `canonicalize_path` succeeds on `p` (short enough for the `int` counters of
the source, `p.length + 1 < 2 ^ 31`) with result `r`, `r` begins with `/` exactly
when `p` does; and when every entry of the component table has length 0 after the
resolution loop, `r` is `/` for a `p` that begins with `/` and empty otherwise. -/
theorem canonicalize_path_absolute_preserving (p r : List Char) (hp : NUL ∉ p)
    (hlen : p.length + 1 < 2 ^ 31) (h : run_path p = some r) :
    (r.head? = some '/' ↔ p.head? = some '/') ∧
    (∀ dirs, resolve_path '/' (p ++ [NUL]) 0 = some dirs → (∀ d ∈ dirs, d.len = 0) →
      r = if p.head? = some '/' then ['/'] else []) := by
  have _hfit := int_counters_fit '/' p hp slash_ne_NUL hlen
  have hpne : p ≠ [] := by
    intro e; simp [e, run_path_eq] at h
  rw [run_path_eq p hp, if_neg hpne] at h
  obtain ⟨names, hn, hw, hout⟩ := reference_shape '/' p r h
  have hord : ∀ n ∈ names, ordinary '/' n := fun n hm => (hn n hm).1
  constructor
  · by_cases habs : p.head? = some '/'
    · simp [hout, lead, habs]
    · have := head_join_with '/' names hord
      simp [hout, lead, habs, this]
  · intro dirs hres hzero
    obtain ⟨M, hM, _, hsv⟩ := (resolve_path_eq '/' [] p [] hp slash_ne_NUL).2 names hw
    simp only [List.nil_append, List.length_nil] at hM
    rw [hM] at hres
    simp only [Option.some.injEq] at hres
    subst hres
    have := survivors_of_all_zero M 0 hzero
    rw [hsv] at this
    rw [hout, this]
    simp [lead, join_with]

theorem canonicalize_path_absolute_preserving_witness :
    NUL ∉ ['/', 'a', '/', '.', '.'] ∧ ['/', 'a', '/', '.', '.'].length + 1 < 2 ^ 31 ∧
    run_path ['/', 'a', '/', '.', '.'] = some ['/'] ∧
    (['/'].head? = some '/' ↔ ['/', 'a', '/', '.', '.'].head? = some '/') ∧
    resolve_path '/' (['/', 'a', '/', '.', '.'] ++ [NUL]) 0 = some [⟨0, 0⟩, ⟨1, 0⟩, ⟨3, 0⟩] ∧
    ['/'] = (if ['/', 'a', '/', '.', '.'].head? = some '/' then ['/'] else []) :=
  ⟨by decide, by decide, by decide,
    (canonicalize_path_absolute_preserving ['/', 'a', '/', '.', '.'] ['/'] (by decide)
      (by decide) (by decide)).1,
    by decide,
    (canonicalize_path_absolute_preserving ['/', 'a', '/', '.', '.'] ['/'] (by decide)
      (by decide) (by decide)).2 [⟨0, 0⟩, ⟨1, 0⟩, ⟨3, 0⟩] (by decide) (by decide)⟩

/-- C8: every result `r` of `canonicalize_path`, on a path short enough for the `int`
counters of the source (`p.length + 1 < 2 ^ 31`), is in canonical form: it is empty, or `/`, or
an optional single leading `/` followed by one or more names joined by exactly one `/`
each, every name being non-empty, free of `/` and neither `.` nor `..`; `r` holds no two
adjacent separators and ends with a separator only when it is `/`. -/
theorem canonicalize_path_canonical_form (p r : List Char) (hp : NUL ∉ p)
    (hlen : p.length + 1 < 2 ^ 31) (h : run_path p = some r) :
    (r = [] ∨ r = ['/'] ∨
      ∃ names, names ≠ [] ∧ (∀ n ∈ names, ordinary '/' n) ∧
        (r = join_with '/' names ∨ r = '/' :: join_with '/' names)) ∧
    (∀ a b, r ≠ a ++ '/' :: '/' :: b) ∧
    (∀ a, r = a ++ ['/'] → r = ['/']) := by
  have _hfit := int_counters_fit '/' p hp slash_ne_NUL hlen
  have hpne : p ≠ [] := by
    intro e; simp [e, run_path_eq] at h
  rw [run_path_eq p hp, if_neg hpne] at h
  obtain ⟨names, hn, _, hout⟩ := reference_shape '/' p r h
  have hord : ∀ n ∈ names, ordinary '/' n := fun n hm => (hn n hm).1
  cases names with
  | nil =>
    by_cases habs : p.head? = some '/'
    · have hr : r = ['/'] := by simp [hout, lead, habs, join_with]
      subst hr
      refine ⟨Or.inr (Or.inl rfl), ?_, fun _ _ => rfl⟩
      intro a b e
      have := congrArg List.length e
      simp at this
      omega
    · have hr : r = [] := by simp [hout, lead, habs, join_with]
      subst hr
      refine ⟨Or.inl rfl, ?_, ?_⟩
      · intro a b e
        have := congrArg List.length e
        simp at this
        omega
      · intro a e
        have := congrArg List.length e
        simp at this
  | cons c t =>
    by_cases habs : p.head? = some '/'
    · have hr : r = '/' :: join_with '/' (c :: t) := by simp [hout, lead, habs]
      refine ⟨Or.inr (Or.inr ⟨c :: t, by simp, hord, Or.inr hr⟩), ?_, ?_⟩
      · intro a b e
        rw [hr] at e
        cases a with
        | nil =>
          simp only [List.nil_append, List.cons.injEq, true_and] at e
          have := head_join_with '/' (c :: t) hord
          rw [e] at this
          simp at this
        | cons x a =>
          simp only [List.cons_append, List.cons.injEq] at e
          exact join_with_no_double '/' c t hord a b e.2
      · intro a e
        rw [hr] at e
        cases a with
        | nil =>
          simp only [List.nil_append, List.cons.injEq, true_and] at e
          have := join_with_eq_nil '/' (c :: t) hord e
          simp at this
        | cons x a =>
          simp only [List.cons_append, List.cons.injEq] at e
          exact absurd e.2 (join_with_no_trailing '/' c t hord a)
    · have hr : r = join_with '/' (c :: t) := by simp [hout, lead, habs]
      refine ⟨Or.inr (Or.inr ⟨c :: t, by simp, hord, Or.inl hr⟩), ?_, ?_⟩
      · intro a b e
        rw [hr] at e
        exact join_with_no_double '/' c t hord a b e
      · intro a e
        rw [hr] at e
        exact absurd e (join_with_no_trailing '/' c t hord a)

theorem canonicalize_path_canonical_form_witness :
    NUL ∉ ['/', '/', 'a', '/', '.', '/', 'b', '/'] ∧
    ['/', '/', 'a', '/', '.', '/', 'b', '/'].length + 1 < 2 ^ 31 ∧
    run_path ['/', '/', 'a', '/', '.', '/', 'b', '/'] = some ['/', 'a', '/', 'b'] ∧
    ((['/', 'a', '/', 'b'] = [] ∨ ['/', 'a', '/', 'b'] = ['/'] ∨
      ∃ names, names ≠ [] ∧ (∀ n ∈ names, ordinary '/' n) ∧
        (['/', 'a', '/', 'b'] = join_with '/' names
          ∨ ['/', 'a', '/', 'b'] = '/' :: join_with '/' names)) ∧
    (∀ a b, ['/', 'a', '/', 'b'] ≠ a ++ '/' :: '/' :: b) ∧
    (∀ a, ['/', 'a', '/', 'b'] = a ++ ['/'] → ['/', 'a', '/', 'b'] = ['/'])) :=
  ⟨by decide, by decide, by decide,
    canonicalize_path_canonical_form ['/', '/', 'a', '/', '.', '/', 'b', '/'] ['/', 'a', '/', 'b']
      (by decide) (by decide) (by decide)⟩

/-- C9: for an input `v ++ ":" ++ t` with no `:` in `v` and `t` non-empty, short enough
for the `int` counters of the source (`length + 1 < 2 ^ 31`),
`canonicalize_efi_path` returns `NULL` exactly when the shared body fails on `t` alone, and
otherwise leaves `v ++ ":" ++ c` in the buffer, `c` being the result of the body on `t`;
`v` is any text without `:`; the body on `t` alone is the stack-based reference with
separator `\`. -/
theorem canonicalize_efi_path_volume_passthrough (v t : List Char) (hv : ':' ∉ v)
    (hvn : NUL ∉ v) (htn : NUL ∉ t) (ht : t ≠ [])
    (hlen : (v ++ [':'] ++ t).length + 1 < 2 ^ 31) :
    (run_efi (v ++ [':'] ++ t) = none ↔ run_body '\\' t = none) ∧
    (∀ c, run_body '\\' t = some c → run_efi (v ++ [':'] ++ t) = some (v ++ [':'] ++ c)) ∧
    run_body '\\' t = reference '\\' t := by
  have _hfit := int_counters_fit '\\' t htn backslash_ne_NUL (by
    simp only [List.length_append, List.length_singleton] at hlen
    omega)
  have h := run_efi_colon v t hvn htn hv
  rw [if_neg ht] at h
  have hb := run_body_eq '\\' t htn backslash_ne_NUL
  have hcat : v ++ [':'] ++ t = v ++ ':' :: t := by simp
  rw [hcat, h, hb]
  refine ⟨?_, ?_, rfl⟩
  · simp
  · intro c hc
    simp [hc]

theorem canonicalize_efi_path_volume_passthrough_witness :
    ':' ∉ ['.', '.', '\\', '.'] ∧ NUL ∉ ['.', '.', '\\', '.'] ∧
    NUL ∉ ['.', '\\', 'a', '\\', '\\', 'b', ':', 'c'] ∧
    ['.', '\\', 'a', '\\', '\\', 'b', ':', 'c'] ≠ [] ∧
    (['.', '.', '\\', '.'] ++ [':'] ++ ['.', '\\', 'a', '\\', '\\', 'b', ':', 'c']).length + 1
      < 2 ^ 31 ∧
    run_body '\\' ['.', '\\', 'a', '\\', '\\', 'b', ':', 'c'] = some ['a', '\\', 'b', ':', 'c'] ∧
    run_efi (['.', '.', '\\', '.'] ++ [':'] ++ ['.', '\\', 'a', '\\', '\\', 'b', ':', 'c'])
      = some (['.', '.', '\\', '.'] ++ [':'] ++ ['a', '\\', 'b', ':', 'c']) :=
  ⟨by decide, by decide, by decide, by decide, by decide, by decide,
    (canonicalize_efi_path_volume_passthrough ['.', '.', '\\', '.']
      ['.', '\\', 'a', '\\', '\\', 'b', ':', 'c'] (by decide) (by decide) (by decide)
      (by decide) (by decide)).2.1 ['a', '\\', 'b', ':', 'c'] (by decide)⟩

/-- C10: `canonicalize_path` returns `NULL` on the empty string, whereas
`canonicalize_efi_path` succeeds and leaves the buffer unchanged on every input whose
remainder after the first `:` (the whole input when there is no `:`) is empty; on the
empty string it succeeds with the empty string. -/
theorem empty_path_handling (x : List Char) (hx : NUL ∉ x) (hrem : after_colon x = []) :
    run_path [] = none ∧
    canonicalize_efi_path (x ++ [NUL]) = ⟨true, x ++ [NUL]⟩ ∧
    run_efi x = some x ∧
    run_efi [] = some [] := by
  refine ⟨by decide, ?_, ?_, by decide⟩
  · by_cases hc : ':' ∈ x
    · obtain ⟨v, hv, hxv⟩ := split_at_colon x hc
      rw [hrem] at hxv
      subst hxv
      have hvn : NUL ∉ v := fun e => hx (by simp [e])
      have := efi_colon v [] hvn (by simp) hv
      simpa using this
    · have hxe : x = [] := by
        simpa [after_colon, hc] using hrem
      subst hxe
      decide
  · by_cases hc : ':' ∈ x
    · obtain ⟨v, hv, hxv⟩ := split_at_colon x hc
      rw [hrem] at hxv
      subst hxv
      have hvn : NUL ∉ v := fun e => hx (by simp [e])
      have := run_efi_colon v [] hvn (by simp) hv
      simpa using this
    · have hxe : x = [] := by
        simpa [after_colon, hc] using hrem
      subst hxe
      decide

theorem empty_path_handling_witness :
    NUL ∉ ['f', 's', '0', ':'] ∧ after_colon ['f', 's', '0', ':'] = [] ∧
    (run_path [] = none ∧
      canonicalize_efi_path (['f', 's', '0', ':'] ++ [NUL]) = ⟨true, ['f', 's', '0', ':'] ++ [NUL]⟩ ∧
      run_efi ['f', 's', '0', ':'] = some ['f', 's', '0', ':'] ∧
      run_efi [] = some []) :=
  ⟨by decide, by decide, empty_path_handling ['f', 's', '0', ':'] (by decide) (by decide)⟩

/-- C11: the two variants are the same algorithm up to the separator: for every non-empty
string `p` without `:`, short enough for the `int` counters of both sources
(`p.length + 1 < 2 ^ 31`), `canonicalize_efi_path` on `swap p` returns `NULL` exactly when
`canonicalize_path` returns `NULL` on `p`, and otherwise its result is `swap` of the result
of `canonicalize_path`. -/
theorem canonicalize_efi_path_swap (p : List Char) (hne : p ≠ []) (hc : ':' ∉ p)
    (hp : NUL ∉ p) (hlen : p.length + 1 < 2 ^ 31) :
    (run_efi (swap p) = none ↔ run_path p = none) ∧
    (∀ r, run_path p = some r → run_efi (swap p) = some (swap r)) := by
  have _hfit := int_counters_fit '/' p hp slash_ne_NUL hlen
  have hsn : NUL ∉ swap p := not_mem_swap p NUL (by decide) (by decide) hp
  have hsc : ':' ∉ swap p := not_mem_swap p ':' (by decide) (by decide) hc
  have hse : swap p ≠ [] := by simp [swap, hne]
  have hmap := reference_map swap_sep '/' swap_sep_slash swap_sep_dot p
  have e : swap_sep '/' = '\\' := by decide
  rw [e] at hmap
  rw [run_efi_no_colon _ hsn hsc, if_neg hse, run_path_eq p hp, if_neg hne]
  simp only [swap]
  rw [hmap]
  constructor
  · simp
  · intro r hr
    simp [hr]

theorem canonicalize_efi_path_swap_witness :
    ['\\', '/', 'a', '/', '.', '.', '/', 'b'] ≠ [] ∧ ':' ∉ ['\\', '/', 'a', '/', '.', '.', '/', 'b'] ∧
    NUL ∉ ['\\', '/', 'a', '/', '.', '.', '/', 'b'] ∧
    ['\\', '/', 'a', '/', '.', '.', '/', 'b'].length + 1 < 2 ^ 31 ∧
    run_path ['\\', '/', 'a', '/', '.', '.', '/', 'b'] = some ['\\', '/', 'b'] ∧
    run_efi (swap ['\\', '/', 'a', '/', '.', '.', '/', 'b']) = some (swap ['\\', '/', 'b']) :=
  ⟨by decide, by decide, by decide, by decide, by decide,
    (canonicalize_efi_path_swap ['\\', '/', 'a', '/', '.', '.', '/', 'b'] (by decide) (by decide)
      (by decide) (by decide)).2 ['\\', '/', 'b'] (by decide)⟩

/-- C12 fails as stated: there is no input on which `canonicalize_path` returns `NULL` and
leaves the buffer different from what it was before the call. -/
theorem canonicalize_path_no_mutation_on_failure :
    ¬ ∃ p : List Char, (canonicalize_path (p ++ [NUL])).ok = false ∧
        (canonicalize_path (p ++ [NUL])).mem ≠ p ++ [NUL] := by
  rintro ⟨p, h1, h2⟩
  exact h2 (canonicalize_path_fail_mem _ h1)

/-- C12 (amended): on failure `canonicalize_path` leaves the caller's buffer unchanged: for
every input on which it returns `NULL`, the buffer after the call equals the buffer before
the call. -/
theorem canonicalize_path_failure_keeps_buffer (p : List Char)
    (h : (canonicalize_path (p ++ [NUL])).ok = false) :
    (canonicalize_path (p ++ [NUL])).mem = p ++ [NUL] :=
  canonicalize_path_fail_mem _ h

theorem canonicalize_path_failure_keeps_buffer_witness :
    (canonicalize_path (['a', '/', '.', '/', '.', '.', '/', '.', '.', '/', 'b'] ++ [NUL])).ok = false ∧
    (canonicalize_path (['a', '/', '.', '/', '.', '.', '/', '.', '.', '/', 'b'] ++ [NUL])).mem
      = ['a', '/', '.', '/', '.', '.', '/', '.', '.', '/', 'b'] ++ [NUL] :=
  ⟨by decide,
    canonicalize_path_failure_keeps_buffer ['a', '/', '.', '/', '.', '.', '/', '.', '.', '/', 'b']
      (by decide)⟩

/-- C13: once `canonicalize_path` returns `NULL` on a non-empty path `p`, it returns `NULL`
on `p ++ "/" ++ q` for every `q`, both paths being short enough for the `int` counters of
the source (the longer one has `length + 1 < 2 ^ 31`). -/
theorem canonicalize_path_failure_final (p q : List Char) (hp : NUL ∉ p) (hq : NUL ∉ q)
    (hne : p ≠ []) (h : run_path p = none)
    (hlen : (p ++ ['/'] ++ q).length + 1 < 2 ^ 31) : run_path (p ++ ['/'] ++ q) = none := by
  have hpq : NUL ∉ p ++ ['/'] ++ q := by
    simp [hp, hq]; decide
  have _hfit := int_counters_fit '/' _ hpq slash_ne_NUL hlen
  rw [run_path_eq p hp, if_neg hne] at h
  rw [run_path_eq _ hpq, if_neg (by simp)]
  simpa using reference_none_append '/' p q h

theorem canonicalize_path_failure_final_witness :
    NUL ∉ ['a', '/', '.', '.', '/', '.', '.'] ∧ NUL ∉ ['b', '/', 'c'] ∧
    ['a', '/', '.', '.', '/', '.', '.'] ≠ [] ∧
    run_path ['a', '/', '.', '.', '/', '.', '.'] = none ∧
    (['a', '/', '.', '.', '/', '.', '.'] ++ ['/'] ++ ['b', '/', 'c']).length + 1 < 2 ^ 31 ∧
    run_path (['a', '/', '.', '.', '/', '.', '.'] ++ ['/'] ++ ['b', '/', 'c']) = none :=
  ⟨by decide, by decide, by decide, by decide, by decide,
    canonicalize_path_failure_final ['a', '/', '.', '.', '/', '.', '.'] ['b', '/', 'c']
      (by decide) (by decide) (by decide) (by decide) (by decide)⟩

/-- C14: a `..` consumes the ordinary name right before it: `canonicalize_path` has the same
outcome on `a ++ "/" ++ n ++ "/../" ++ b` and on `a ++ "/" ++ b` for every ordinary name `n`,
both paths being short enough for the `int` counters of the source (the longer one has
`length + 1 < 2 ^ 31`). -/
theorem canonicalize_path_dotdot_cancels_name (a b n : List Char) (ha : NUL ∉ a)
    (hb : NUL ∉ b) (hnn : NUL ∉ n) (hn : ordinary '/' n)
    (hlen : (a ++ ['/'] ++ n ++ ['/', '.', '.', '/'] ++ b).length + 1 < 2 ^ 31) :
    run_path (a ++ ['/'] ++ n ++ ['/', '.', '.', '/'] ++ b) = run_path (a ++ ['/'] ++ b) := by
  have h1 : NUL ∉ a ++ ['/'] ++ n ++ ['/', '.', '.', '/'] ++ b := by
    simp [ha, hb, hnn]; decide
  have _hfit := int_counters_fit '/' _ h1 slash_ne_NUL hlen
  have h2 : NUL ∉ a ++ ['/'] ++ b := by
    simp [ha, hb]; decide
  rw [run_path_eq _ h1, run_path_eq _ h2, if_neg (by simp), if_neg (by simp)]
  simpa using reference_name_dotdot '/' (by decide) a b n hn

theorem canonicalize_path_dotdot_cancels_name_witness :
    NUL ∉ ['x', '/', '.', '.', '/', 'y'] ∧ NUL ∉ ['.', '.', '/', 'z'] ∧ NUL ∉ ['n', '.'] ∧
    ordinary '/' ['n', '.'] ∧
    (['x', '/', '.', '.', '/', 'y'] ++ ['/'] ++ ['n', '.'] ++ ['/', '.', '.', '/']
        ++ ['.', '.', '/', 'z']).length + 1 < 2 ^ 31 ∧
    run_path (['x', '/', '.', '.', '/', 'y'] ++ ['/'] ++ ['n', '.'] ++ ['/', '.', '.', '/']
        ++ ['.', '.', '/', 'z'])
      = run_path (['x', '/', '.', '.', '/', 'y'] ++ ['/'] ++ ['.', '.', '/', 'z']) :=
  ⟨by decide, by decide, by decide, by decide, by decide,
    canonicalize_path_dotdot_cancels_name ['x', '/', '.', '.', '/', 'y'] ['.', '.', '/', 'z']
      ['n', '.'] (by decide) (by decide) (by decide) (by decide) (by decide)⟩

/-- C15: a `.` component has no effect: `canonicalize_path` has the same outcome on
`a ++ "/./" ++ b` and on `a ++ "/" ++ b`, both paths being short enough for the `int`
counters of the source (the longer one has `length + 1 < 2 ^ 31`). -/
theorem canonicalize_path_dot_no_effect (a b : List Char) (ha : NUL ∉ a) (hb : NUL ∉ b)
    (hlen : (a ++ ['/', '.', '/'] ++ b).length + 1 < 2 ^ 31) :
    run_path (a ++ ['/', '.', '/'] ++ b) = run_path (a ++ ['/'] ++ b) := by
  have h1 : NUL ∉ a ++ ['/', '.', '/'] ++ b := by
    simp [ha, hb]; decide
  have _hfit := int_counters_fit '/' _ h1 slash_ne_NUL hlen
  have h2 : NUL ∉ a ++ ['/'] ++ b := by
    simp [ha, hb]; decide
  rw [run_path_eq _ h1, run_path_eq _ h2, if_neg (by simp), if_neg (by simp)]
  simpa using reference_dot '/' (by decide) a b

theorem canonicalize_path_dot_no_effect_witness :
    NUL ∉ ['a', '/', 'b'] ∧ NUL ∉ ['.', '.', '/', 'c'] ∧
    (['a', '/', 'b'] ++ ['/', '.', '/'] ++ ['.', '.', '/', 'c']).length + 1 < 2 ^ 31 ∧
    run_path (['a', '/', 'b'] ++ ['/', '.', '/'] ++ ['.', '.', '/', 'c'])
      = run_path (['a', '/', 'b'] ++ ['/'] ++ ['.', '.', '/', 'c']) :=
  ⟨by decide, by decide, by decide,
    canonicalize_path_dot_no_effect ['a', '/', 'b'] ['.', '.', '/', 'c'] (by decide) (by decide)
      (by decide)⟩

/-- C16: in-place reconstruction is sound under aliasing: for a path `p` that passes
resolution and is short enough for the `int` counters of the source
(`p.length + 1 < 2 ^ 31`), the reconstruction of `canonicalize_path`, which writes into the buffer it
reads the components from, leaves the same string as reconstruction into a separate buffer
`dst` from the unmodified `p`; and in the in-place loop every copy step writes at or before
the cell it reads and every separator is written before the component read next. -/
theorem reconstruction_sound_under_aliasing (p : List Char) (hp : NUL ∉ p)
    (hlen : p.length + 1 < 2 ^ 31) (dirs : List dir_component) (hres : resolve_path '/' (p ++ [NUL]) 0 = some dirs)
    (dst : List Char) (hdst : dst.length = p.length + 1) :
    canonicalize_body '/' (p ++ [NUL]) 0
      = ⟨true, reconstruct '/' dirs (split_path '/' (p ++ [NUL]) 0).1 (p ++ [NUL]) 0⟩ ∧
    c_str (reconstruct '/' dirs (split_path '/' (p ++ [NUL]) 0).1 (p ++ [NUL]) 0)
      = c_str (reconstruct_fresh '/' dirs (split_path '/' (p ++ [NUL]) 0).1 (p ++ [NUL]) 0 dst) ∧
    (emit_loop_tr '/' dirs (split_path '/' (p ++ [NUL]) 0).1 0
        (if peek (p ++ [NUL]) 0 = '/' then 0 + 1 else 0) true (p ++ [NUL])).1
      = emit_loop '/' dirs (split_path '/' (p ++ [NUL]) 0).1 0
          (if peek (p ++ [NUL]) 0 = '/' then 0 + 1 else 0) true (p ++ [NUL]) ∧
    (∀ a ∈ (emit_loop_tr '/' dirs (split_path '/' (p ++ [NUL]) 0).1 0
        (if peek (p ++ [NUL]) 0 = '/' then 0 + 1 else 0) true (p ++ [NUL])).2,
      behind_read a) := by
  have _hfit := int_counters_fit '/' p hp slash_ne_NUL hlen
  obtain ⟨M, st, hdirs, hM, hsv, hw⟩ := resolve_path_layout '/' p hp slash_ne_NUL dirs hres
  have hbody := canonicalize_body_some '/' (p ++ [NUL]) 0 dirs hres
  have href : reference '/' p = some (lead '/' p ++ join_with '/' st) := by
    simp [reference, hw]
  have hno : NUL ∉ lead '/' p ++ join_with '/' st :=
    not_mem_reference '/' p _ href NUL hp slash_ne_NUL
  have hlen := reference_length '/' p _ hp slash_ne_NUL href
  have hn : (split_path '/' (p ++ [NUL]) 0).1 = M.length := by
    rw [split_path_fst '/' p hp slash_ne_NUL, ← hM]; simp
  refine ⟨hbody, ?_, emit_loop_tr_fst _ _ _ _ _ _ _, ?_⟩
  · obtain ⟨X, hX, _⟩ := (body_spec '/' [] p [] hp slash_ne_NUL).2 _ href
    simp only [List.nil_append, List.length_nil] at hX
    rw [hbody] at hX
    simp only [call_result.mk.injEq, true_and] at hX
    rw [← hsv] at hlen
    obtain ⟨Z, hZ⟩ := reconstruct_fresh_eq '/' p M hM dst hdst hlen slash_ne_NUL hp
    rw [hX, hn, hdirs, hZ, hsv, c_str_append _ X hno, c_str_append _ Z hno]
  · have hpk := peek_path '/' [] p [] hp slash_ne_NUL
    simp only [List.nil_append, List.length_nil] at hpk
    have hp0 : (if peek (p ++ [NUL]) 0 = '/' then 0 + 1 else 0)
        = (if p.head? = some '/' then 1 else 0) := by
      by_cases h : p.head? = some '/'
      · rw [if_pos h, if_pos (hpk.mpr h)]
      · rw [if_neg h, if_neg (fun e => h (hpk.mp e))]
    rw [hp0, hn, hdirs]
    intro a ha
    exact ((emit_loop_tr_top '/' p M hM (p ++ [NUL])).1 a ha).2

theorem reconstruction_sound_under_aliasing_witness :
    NUL ∉ ['/', 'a', '/', '.', '/', 'b', 'b', '/', '.', '.', '/', 'c'] ∧
    ['/', 'a', '/', '.', '/', 'b', 'b', '/', '.', '.', '/', 'c'].length + 1 < 2 ^ 31 ∧
    resolve_path '/' (['/', 'a', '/', '.', '/', 'b', 'b', '/', '.', '.', '/', 'c'] ++ [NUL]) 0
      = some [⟨0, 0⟩, ⟨1, 1⟩, ⟨3, 0⟩, ⟨5, 0⟩, ⟨8, 0⟩, ⟨11, 1⟩] ∧
    (List.replicate 13 'x').length
      = ['/', 'a', '/', '.', '/', 'b', 'b', '/', '.', '.', '/', 'c'].length + 1 ∧
    c_str (reconstruct '/' [⟨0, 0⟩, ⟨1, 1⟩, ⟨3, 0⟩, ⟨5, 0⟩, ⟨8, 0⟩, ⟨11, 1⟩]
        (split_path '/' (['/', 'a', '/', '.', '/', 'b', 'b', '/', '.', '.', '/', 'c'] ++ [NUL]) 0).1
        (['/', 'a', '/', '.', '/', 'b', 'b', '/', '.', '.', '/', 'c'] ++ [NUL]) 0)
      = c_str (reconstruct_fresh '/' [⟨0, 0⟩, ⟨1, 1⟩, ⟨3, 0⟩, ⟨5, 0⟩, ⟨8, 0⟩, ⟨11, 1⟩]
        (split_path '/' (['/', 'a', '/', '.', '/', 'b', 'b', '/', '.', '.', '/', 'c'] ++ [NUL]) 0).1
        (['/', 'a', '/', '.', '/', 'b', 'b', '/', '.', '.', '/', 'c'] ++ [NUL]) 0
        (List.replicate 13 'x')) :=
  ⟨by decide, by decide, by decide, by decide,
    (reconstruction_sound_under_aliasing
      ['/', 'a', '/', '.', '/', 'b', 'b', '/', '.', '.', '/', 'c'] (by decide) (by decide)
      [⟨0, 0⟩, ⟨1, 1⟩, ⟨3, 0⟩, ⟨5, 0⟩, ⟨8, 0⟩, ⟨11, 1⟩] (by decide)
      (List.replicate 13 'x') (by decide)).2.1⟩

/-- C17: the split loop is a lossless tokenisation: on a string `s` short enough for the
`int` counters of the source (`s.length + 1 < 2 ^ 31`) it yields exactly
`1 + (number of '/' in s)` table entries, no component holds a `/`, and the components
joined with one `/` between neighbours give back `s`; on the empty string it yields one
component of length zero. -/
theorem split_loop_lossless (s : List Char) (hs : NUL ∉ s) (hlen : s.length + 1 < 2 ^ 31) :
    (split_path '/' (s ++ [NUL]) 0).1 = 1 + s.count '/' ∧
    (split_path '/' (s ++ [NUL]) 0).2.length = 1 + s.count '/' ∧
    (∀ d ∈ (split_path '/' (s ++ [NUL]) 0).2, '/' ∉ text (s ++ [NUL]) d) ∧
    join_with '/' ((split_path '/' (s ++ [NUL]) 0).2.map (text (s ++ [NUL]))) = s ∧
    split_path '/' ([] ++ [NUL]) 0 = (1, [⟨0, 0⟩]) := by
  have _hfit := int_counters_fit '/' s hs slash_ne_NUL hlen
  have hsp := split_path_eq '/' [] s [] hs slash_ne_NUL
  simp only [List.nil_append, List.length_nil] at hsp
  have hst : stored (s ++ [NUL]) 0 (split_on '/' s) := by
    have := stored_of_laid (split_on '/' s) [] (s ++ [NUL]) (laid_split_on '/' [] NUL s)
    simpa using this
  have htx := text_layout (s ++ [NUL]) (split_on '/' s) 0 hst
  rw [hsp]
  refine ⟨?_, ?_, ?_, ?_, by decide⟩
  · simp [split_on_length]; omega
  · simp [length_layout_marked, split_on_length]; omega
  · intro d hd
    have hm : text (s ++ [NUL]) d ∈ split_on '/' s := by
      rw [← htx]
      exact List.mem_map_of_mem _ hd
    exact (split_on_mem '/' s _ hm).1
  · simp only [htx]
    exact join_split_on '/' s

theorem split_loop_lossless_witness :
    NUL ∉ ['a', '/', '/', 'b', '/'] ∧ ['a', '/', '/', 'b', '/'].length + 1 < 2 ^ 31 ∧
    ((split_path '/' (['a', '/', '/', 'b', '/'] ++ [NUL]) 0).1 = 1 + ['a', '/', '/', 'b', '/'].count '/' ∧
    (split_path '/' (['a', '/', '/', 'b', '/'] ++ [NUL]) 0).2.length
      = 1 + ['a', '/', '/', 'b', '/'].count '/' ∧
    (∀ d ∈ (split_path '/' (['a', '/', '/', 'b', '/'] ++ [NUL]) 0).2,
      '/' ∉ text (['a', '/', '/', 'b', '/'] ++ [NUL]) d) ∧
    join_with '/' ((split_path '/' (['a', '/', '/', 'b', '/'] ++ [NUL]) 0).2.map
        (text (['a', '/', '/', 'b', '/'] ++ [NUL]))) = ['a', '/', '/', 'b', '/'] ∧
    split_path '/' ([] ++ [NUL]) 0 = (1, [⟨0, 0⟩])) :=
  ⟨by decide, by decide, split_loop_lossless ['a', '/', '/', 'b', '/'] (by decide) (by decide)⟩

/-- C18: all accesses of `canonicalize_path` on a non-empty path `p`, short enough for the
`int` counters of the source (`p.length + 1 < 2 ^ 31`), are in bounds: every
index used on the component table is below the number of entries allocated from the
separator count, every read `dir[0]` or `dir[1]` lies inside its component and the
component lies inside the string held by the buffer, every copy step reads a cell of that
string, and every write of the reconstruction, the final terminator included, lands at an
offset that is at most the length of `p`; the traced run returns what `canonicalize_path`
returns. -/
theorem canonicalize_path_accesses_in_bounds (p : List Char) (hne : p ≠ []) (hp : NUL ∉ p)
    (hlen : p.length + 1 < 2 ^ 31) :
    (canonicalize_path_tr (p ++ [NUL])).1 = canonicalize_path (p ++ [NUL]) ∧
    ∀ a ∈ (canonicalize_path_tr (p ++ [NUL])).2,
      in_bounds (count_loop '/' (p ++ [NUL]) 1) p.length a := by
  have _hfit := int_counters_fit '/' p hp slash_ne_NUL hlen
  refine ⟨canonicalize_path_tr_fst _, ?_⟩
  have hpeek : peek (p ++ [NUL]) 0 ≠ NUL := by
    cases p with
    | nil => exact absurd rfl hne
    | cons c cs =>
      have hc : c ≠ NUL := fun e => hp (by simp [e])
      simpa [peek] using hc
  have halloc : count_loop '/' (p ++ [NUL]) 1 = (split_on '/' p).length := by
    rw [count_loop_eq '/' [] p hp 1, split_on_length]; omega
  have hn := split_path_fst '/' p hp slash_ne_NUL
  unfold canonicalize_path_tr
  rw [if_neg hpeek, canonicalize_body_tr_snd]
  simp only [List.drop_zero, halloc, hn]
  have hsplit := split_loop_tr_bound '/' p.length (p ++ [NUL]) 0 0
    ((List.replicate (split_on '/' p).length (default : dir_component)).set 0 ⟨0, 0⟩)
  rw [Nat.zero_add, halloc] at hsplit
  have hall : ∀ d ∈ (split_path '/' (p ++ [NUL]) 0).2, d.dir + d.len ≤ p.length := by
    intro d hd
    have hsp := split_path_eq '/' [] p [] hp slash_ne_NUL
    simp only [List.nil_append, List.length_nil] at hsp
    rw [hsp] at hd
    have h1 := layout_extent _ 0 d hd
    have h2 := span_split_on '/' p ((split_on '/' p).map (fun c => (c, true)))
      (by simp [List.map_map, Function.comp_def])
    omega
  have hresolve := resolve_loop_tr_bound (p ++ [NUL]) p.length
    (split_on '/' p).length 0 (split_path '/' (p ++ [NUL]) 0).2 hall
  rw [Nat.zero_add] at hresolve
  have h0 : in_bounds (split_on '/' p).length p.length (access.table 0) :=
    List.length_pos.mpr (split_on_ne_nil '/' p)
  cases hres : resolve_path '/' (p ++ [NUL]) 0 with
  | none =>
    intro a ha
    simp only [List.mem_cons, List.mem_append, or_assoc] at ha
    rcases ha with e | e | e
    · rw [e]; exact h0
    · exact hsplit a e
    · exact hresolve a e
  | some dirs =>
    obtain ⟨M, st, hdirs, hM, _, _⟩ := resolve_path_layout '/' p hp slash_ne_NUL dirs hres
    have hpk := peek_path '/' [] p [] hp slash_ne_NUL
    simp only [List.nil_append, List.length_nil] at hpk
    have hp0 : (if peek (p ++ [NUL]) 0 = '/' then 0 + 1 else 0)
        = (if p.head? = some '/' then 1 else 0) := by
      by_cases h : p.head? = some '/'
      · rw [if_pos h, if_pos (hpk.mpr h)]
      · rw [if_neg h, if_neg (fun e => h (hpk.mp e))]
    have hMn : M.length = (split_on '/' p).length := by
      rw [← hM]; simp
    obtain ⟨he1, he2⟩ := emit_loop_tr_top '/' p M hM (p ++ [NUL])
    rw [hMn] at he1 he2
    intro a ha
    simp only [hp0, hdirs] at ha
    simp only [List.mem_cons, List.mem_append, or_assoc, List.not_mem_nil, or_false] at ha
    rcases ha with e | e | e | e | e
    · rw [e]; exact h0
    · exact hsplit a e
    · exact hresolve a e
    · exact (he1 a e).1
    · rw [e]; exact he2

theorem canonicalize_path_accesses_in_bounds_witness :
    ['/', 'a', '/', '.', '/', 'b', 'b', '/', '.', '.', '/', 'c'] ≠ [] ∧
    NUL ∉ ['/', 'a', '/', '.', '/', 'b', 'b', '/', '.', '.', '/', 'c'] ∧
    ['/', 'a', '/', '.', '/', 'b', 'b', '/', '.', '.', '/', 'c'].length + 1 < 2 ^ 31 ∧
    ((canonicalize_path_tr (['/', 'a', '/', '.', '/', 'b', 'b', '/', '.', '.', '/', 'c'] ++ [NUL])).1
      = canonicalize_path (['/', 'a', '/', '.', '/', 'b', 'b', '/', '.', '.', '/', 'c'] ++ [NUL]) ∧
    ∀ a ∈ (canonicalize_path_tr
        (['/', 'a', '/', '.', '/', 'b', 'b', '/', '.', '.', '/', 'c'] ++ [NUL])).2,
      in_bounds (count_loop '/' (['/', 'a', '/', '.', '/', 'b', 'b', '/', '.', '.', '/', 'c'] ++ [NUL]) 1)
        ['/', 'a', '/', '.', '/', 'b', 'b', '/', '.', '.', '/', 'c'].length a) :=
  ⟨by decide, by decide, by decide,
    canonicalize_path_accesses_in_bounds
      ['/', 'a', '/', '.', '/', 'b', 'b', '/', '.', '.', '/', 'c'] (by decide) (by decide)
      (by decide)⟩

/-- C19: the fixed points of `canonicalize_path` are exactly the non-empty canonical forms:
on a path `p` short enough for the `int` counters of the source (`p.length + 1 < 2 ^ 31`)
it succeeds with result `p` if and only if `p` is `/`, or an optional single leading
`/` followed by one or more ordinary names joined by exactly one `/` each. -/
theorem canonicalize_path_fixed_points (p : List Char) (hp : NUL ∉ p)
    (hlen : p.length + 1 < 2 ^ 31) :
    run_path p = some p ↔
      (p = ['/'] ∨
        ∃ names, names ≠ [] ∧ (∀ n ∈ names, ordinary '/' n) ∧
          (p = join_with '/' names ∨ p = '/' :: join_with '/' names)) := by
  have _hfit := int_counters_fit '/' p hp slash_ne_NUL hlen
  constructor
  · intro h
    have hpne : p ≠ [] := by
      intro e; simp [e, run_path_eq] at h
    rw [run_path_eq p hp, if_neg hpne] at h
    obtain ⟨names, hn, _, hout⟩ := reference_shape '/' p p h
    have hord : ∀ n ∈ names, ordinary '/' n := fun n hm => (hn n hm).1
    by_cases habs : p.head? = some '/'
    · have hl : lead '/' p = ['/'] := by simp [lead, habs]
      rw [hl] at hout
      by_cases hnil : names = []
      · left; rw [hout, hnil]; simp [join_with]
      · right; exact ⟨names, hnil, hord, Or.inr (by simpa using hout)⟩
    · have hl : lead '/' p = [] := by simp [lead, habs]
      rw [hl, List.nil_append] at hout
      have hnil : names ≠ [] := by
        intro e; rw [e] at hout; simp [join_with] at hout; exact hpne hout
      right; exact ⟨names, hnil, hord, Or.inl hout⟩
  · intro h
    rcases h with h | ⟨names, hne, hord, h | h⟩
    · subst h; decide
    · have := reference_of_names '/' names hord false (Or.inr hne)
      simp only [Bool.false_eq_true, if_false, List.nil_append] at this
      have hp0 : p ≠ [] := by
        intro e; rw [e] at h
        exact hne (join_with_eq_nil '/' names hord h.symm)
      rw [run_path_eq p hp, if_neg hp0, h]
      exact this
    · have := reference_of_names '/' names hord true (Or.inl rfl)
      simp only [if_true, List.singleton_append] at this
      rw [run_path_eq p hp, if_neg (by simp [h]), h]
      exact this

theorem canonicalize_path_fixed_points_witness :
    NUL ∉ ['/', 'a', '/', 'b'] ∧ ['/', 'a', '/', 'b'].length + 1 < 2 ^ 31 ∧
    (run_path ['/', 'a', '/', 'b'] = some ['/', 'a', '/', 'b'] ↔
      (['/', 'a', '/', 'b'] = ['/'] ∨
        ∃ names, names ≠ [] ∧ (∀ n ∈ names, ordinary '/' n) ∧
          (['/', 'a', '/', 'b'] = join_with '/' names
            ∨ ['/', 'a', '/', 'b'] = '/' :: join_with '/' names))) :=
  ⟨by decide, by decide,
    canonicalize_path_fixed_points ['/', 'a', '/', 'b'] (by decide) (by decide)⟩

/-- C20: canonicalisation composes over joining: when `canonicalize_path` succeeds on `p`
with a non-empty result `r`, it has the same outcome on `p ++ "/" ++ q` and on
`r ++ "/" ++ q` for every `q`, all paths being short enough for the `int` counters of the
source (the longest one, `p ++ "/" ++ q`, has `length + 1 < 2 ^ 31`). -/
theorem canonicalize_path_composes (p r q : List Char) (hp : NUL ∉ p) (hq : NUL ∉ q)
    (h : run_path p = some r) (hr : r ≠ [])
    (hlen : (p ++ ['/'] ++ q).length + 1 < 2 ^ 31) :
    run_path (p ++ ['/'] ++ q) = run_path (r ++ ['/'] ++ q) := by
  have hpne : p ≠ [] := by
    intro e; simp [e, run_path_eq] at h
  rw [run_path_eq p hp, if_neg hpne] at h
  have hrn : NUL ∉ r := not_mem_reference '/' p r h NUL hp slash_ne_NUL
  have h1 : NUL ∉ p ++ ['/'] ++ q := by
    simp [hp, hq]; decide
  have _hfit := int_counters_fit '/' _ h1 slash_ne_NUL hlen
  have h2 : NUL ∉ r ++ ['/'] ++ q := by
    simp [hrn, hq]; decide
  rw [run_path_eq _ h1, run_path_eq _ h2, if_neg (by simp), if_neg (by simp)]
  simpa using reference_compose '/' p r q h hpne hr

theorem canonicalize_path_composes_witness :
    NUL ∉ ['/', 'a', '/', '.', '/', 'b', '/', '/'] ∧ NUL ∉ ['.', '.', '/', '.', '.', '/', 'c'] ∧
    run_path ['/', 'a', '/', '.', '/', 'b', '/', '/'] = some ['/', 'a', '/', 'b'] ∧
    ['/', 'a', '/', 'b'] ≠ [] ∧
    (['/', 'a', '/', '.', '/', 'b', '/', '/'] ++ ['/']
      ++ ['.', '.', '/', '.', '.', '/', 'c']).length + 1 < 2 ^ 31 ∧
    run_path (['/', 'a', '/', '.', '/', 'b', '/', '/'] ++ ['/'] ++ ['.', '.', '/', '.', '.', '/', 'c'])
      = run_path (['/', 'a', '/', 'b'] ++ ['/'] ++ ['.', '.', '/', '.', '.', '/', 'c']) :=
  ⟨by decide, by decide, by decide, by decide, by decide,
    canonicalize_path_composes ['/', 'a', '/', '.', '/', 'b', '/', '/'] ['/', 'a', '/', 'b']
      ['.', '.', '/', '.', '.', '/', 'c'] (by decide) (by decide) (by decide) (by decide)
      (by decide)⟩

end PathCanon
